import Mathlib

/-!
# Verification of the Shoy content-addressed versioned-value store

Shallow embedding of the `Shoy` class from `src/index.ts` of the `shoy`
repository: the canonical hasher (`hash` / `fastObjectHash`), the structural
equality checker (`isEqual`, from the sibling `PatchStore` implementation in
the same file), the patch resolver (`deepMerge`), the version log with its
retention policy (`commit` / `prune`), the history navigator
(`revert` / `undo` / `redo`) and the subscriber fan-out (`notify`).

Modelling conventions:
* JS numbers are modelled as integers (all states exercised by the repository
  are integer-valued); `String()` rendering of an integer agrees with JS.
* Strings are compared by code points, which agrees with the UTF-16
  code-unit comparison used by JS `Array.prototype.sort` on the BMP.
* A JS `Map` is an insertion-ordered association list with unique keys;
  `Map.set` of an existing key updates the value in place (position kept),
  `Map.set` of a fresh key appends, `Map.delete` removes the entry.
* Acyclic values are Lean trees (`Value`).  A tree value can never contain
  itself, so `validateState` is the identity on this model; reference cycles
  are modelled separately by an explicit heap (`HObj`, used for claim C1).
* Subscribers are identified by numbers; an operation returns the list of
  `(subscriber, hash)` notification events it fired.
-/

/-- JS primitive values occurring as store states or leaves of states. -/
inductive Prim where
  | num (n : Int)
  | str (s : String)
  | bool (b : Bool)
  | null
deriving DecidableEq, Repr

/-- JS `String(p)` rendering of a primitive, as used by `fastObjectHash`.
Note that `String(1)` and `String("1")` are both `"1"`: the textual form is
not injective across primitive types. -/
def primToString : Prim → String
  | .num n => toString n
  | .str s => s
  | .bool b => if b then "true" else "false"
  | .null => "null"

/-- JS string comparison (`<` on strings, code-unit lexicographic): used by
`Array.prototype.sort` on `Object.keys`. -/
def jsStrLt : List Char → List Char → Bool
  | [], [] => false
  | [], _ :: _ => true
  | _ :: _, [] => false
  | a :: as, b :: bs =>
      if a.toNat < b.toNat then true
      else if b.toNat < a.toNat then false
      else jsStrLt as bs

/-- `a ≤ b` for JS strings. -/
def jsLe (a b : String) : Bool := !(jsStrLt b.data a.data)

/-- One insertion step of a stable insertion sort on key/value pairs. -/
def insertKV {β : Type} (kv : String × β) : List (String × β) → List (String × β)
  | [] => [kv]
  | kv2 :: rest => if jsLe kv.1 kv2.1 then kv :: kv2 :: rest else kv2 :: insertKV kv rest

/-- Stable sort of key/value pairs by key in JS string order.  Models the
result of `Object.keys(obj).sort()` followed by per-key rendering: JS `sort`
is stable and sorts strings in code-unit order. -/
def sortByKey {β : Type} : List (String × β) → List (String × β)
  | [] => []
  | kv :: rest => insertKV kv (sortByKey rest)

/-- One step of the rolling hash of `Shoy.hash` (src/index.ts lines 393-396):
`h = (h * 33) ^ charCode`, on unsigned 32-bit bit patterns. -/
def djb2Step (h : Nat) (c : Char) : Nat := ((h * 33) % 4294967296) ^^^ c.toNat

/-- The rolling multiplicative hash of `Shoy.hash`, seed 5381, folded over the
canonical string; the result is the unsigned 32-bit value `h >>> 0`. -/
def djb2 (s : String) : Nat := s.data.foldl djb2Step 5381

/-- Digit used by JS `Number.prototype.toString(36)`. -/
def digitChar36 (n : Nat) : Char :=
  if n < 10 then Char.ofNat (48 + n) else Char.ofNat (87 + n)

/-- Auxiliary base-36 printer; the fuel (first argument) only bounds the digit
count and is ample for 32-bit inputs. -/
def toBase36Aux : Nat → Nat → List Char → List Char
  | 0, _, acc => acc
  | fuel + 1, n, acc =>
      if n < 36 then digitChar36 n :: acc
      else toBase36Aux fuel (n / 36) (digitChar36 (n % 36) :: acc)

/-- JS `n.toString(36)` for an unsigned 32-bit `n`. -/
def toBase36 (n : Nat) : String := ⟨toBase36Aux (n + 1) n []⟩

/-! ## Tree values -/

/-- Acyclic JS values: primitives, arrays and plain keyed records (objects).
Object fields are kept in insertion order, as JS objects do. -/
inductive Value where
  | prim (p : Prim)
  | arr (items : List Value)
  | obj (fields : List (String × Value))
deriving Repr

/-- `typeof state !== "object" || state === null` (`Shoy.isPrimitive`,
src/index.ts lines 350-352).  JS `null` is primitive by this test. -/
def isPrimitive : Value → Bool
  | .prim _ => true
  | _ => false

/-- `typeof value === "object" && value !== null` (`Shoy.isObject`). -/
def isObjectV (v : Value) : Bool := !(isPrimitive v)

/-- `Array.isArray`. -/
def isArrayV : Value → Bool
  | .arr _ => true
  | _ => false

/-- A plain keyed record: `isObject` and not `Array.isArray`. -/
def isRecordV : Value → Bool
  | .obj _ => true
  | _ => false

/-- `Object.is` on primitive values (the only case `Shoy.apply` uses it for).
On the integer fragment `Object.is` is plain equality by primitive type and
value; any comparison involving a non-primitive yields `false` here, which is
conservative for the primitive-only call site. -/
def objectIs : Value → Value → Bool
  | .prim p, .prim q => p == q
  | _, _ => false

/-- First-match association lookup: JS `Map.get` / property read. -/
def lookupF {β : Type} (l : List (String × β)) (k : String) : Option β :=
  (l.find? (fun kv => kv.1 == k)).map (fun kv => kv.2)

/-- JS `Map.has` / `Object.keys(..).includes`. -/
def hasF {β : Type} (l : List (String × β)) (k : String) : Bool :=
  (lookupF l k).isSome

/-- JS `Map.set` / property assignment: update in place if the key is
present (its position does not move), otherwise append at the end. -/
def setF {β : Type} (l : List (String × β)) (k : String) (v : β) : List (String × β) :=
  if (l.map Prod.fst).contains k then
    l.map (fun kv => if kv.1 == k then (k, v) else kv)
  else l ++ [(k, v)]

/-- JS `Map.delete`. -/
def delF {β : Type} (l : List (String × β)) (k : String) : List (String × β) :=
  l.filter (fun kv => kv.1 != k)

/-- Keys in insertion order: `Array.from(map.keys())` / `Object.keys`. -/
def keysOf {β : Type} (l : List (String × β)) : List String := l.map Prod.fst

/-- Key uniqueness of one field list (JS objects cannot have duplicate
keys). -/
def nodupKeys {β : Type} : List (String × β) → Bool
  | [] => true
  | (k, _) :: rest => !((rest.map Prod.fst).contains k) && nodupKeys rest

mutual
/-- Well-formed tree value: every record in it has unique field keys, as any
value built by a JS program does. -/
def wfV : Value → Bool
  | .prim _ => true
  | .arr items => wfVList items
  | .obj fields => nodupKeys fields && wfVFields fields
def wfVList : List Value → Bool
  | [] => true
  | v :: rest => wfV v && wfVList rest
def wfVFields : List (String × Value) → Bool
  | [] => true
  | (_, v) :: rest => wfV v && wfVFields rest
end

mutual
/-- Canonical string of `Shoy.fastObjectHash` (src/index.ts lines 400-428):
arrays render their items in order between brackets; records render
`key:value` pairs in sorted key order between braces; a non-object item
renders as JS `String(item)`.  Rendering the fields first and then sorting
the rendered pairs by key is the same as sorting `Object.keys` first, since
each key determines its field. -/
def fastObjectHash : Value → String
  | .prim p => primToString p
  | .arr items => "[" ++ String.intercalate "," (fastList items) ++ "]"
  | .obj fields =>
      "\x7b" ++ String.intercalate ","
        ((sortByKey (fastFields fields)).map (fun kv => kv.1 ++ ":" ++ kv.2)) ++ "\x7d"
termination_by structural v => v
def fastList : List Value → List String
  | [] => []
  | v :: rest => fastObjectHash v :: fastList rest
termination_by structural l => l
def fastFields : List (String × Value) → List (String × String)
  | [] => []
  | (k, v) :: rest => (k, fastObjectHash v) :: fastFields rest
termination_by structural l => l
end

/-- Fingerprints are strings. -/
abbrev Hash := String

/-- `Shoy.hash` (src/index.ts lines 387-398): primitives get a tagged direct
string form; objects get the canonical string reduced by the rolling hash,
rendered in base 36 and tagged with `"i"`. -/
def hashV (state : Value) : Hash :=
  if isPrimitive state then
    "p" ++ (match state with | .prim p => primToString p | _ => "")
  else
    "i" ++ toBase36 (djb2 (fastObjectHash state))

mutual
/-- Structural equality (`PatchStore.isEqual`, src/index.ts lines 111-156):
primitives by `Object.is`; mismatched shapes (different constructors) are
unequal; arrays elementwise; records by field count plus, for every key of
`a`, membership in `b`'s keys and recursive equality of the values.  Iterating
`a`'s field list is the same as iterating `Object.keys(a)`, since JS object
keys are unique. -/
def isEqual : Value → Value → Bool
  | .prim p, .prim q => p == q
  | .prim _, _ => false
  | _, .prim _ => false
  | .arr as, .arr bs => (as.length == bs.length) && isEqualList as bs
  | .arr _, .obj _ => false
  | .obj _, .arr _ => false
  | .obj fa, .obj fb => (fa.length == fb.length) && isEqualFields fa fb
termination_by structural a => a
def isEqualList : List Value → List Value → Bool
  | [], _ => true
  | _ :: _, [] => false
  | a :: as, b :: bs => isEqual a b && isEqualList as bs
termination_by structural l => l
def isEqualFields : List (String × Value) → List (String × Value) → Bool
  | [], _ => true
  | (k, va) :: rest, fb =>
      (match lookupF fb k with
       | some vb => isEqual va vb
       | none => false) && isEqualFields rest fb
termination_by structural l => l
end

mutual
/-- `Shoy.deepMerge` (src/index.ts lines 354-385).  If either side is
primitive, or either side is an array, the patch replaces the slot wholesale;
otherwise both sides are plain records and the patch's fields are merged into
a copy of `prev`, recursing exactly when both the previous value and the
patch value at a key are plain records. -/
def deepMerge : Value → Value → Value
  | prev, patch =>
    match prev, patch with
    | .obj pf, .obj qf => .obj (mergeFields pf pf qf)
    | _, patch => patch
termination_by structural _ patch => patch
/-- The `for (const key in patch)` loop of `deepMerge`: `prevF` is the field
list of `prev` (used for lookups), `acc` the result being assembled (started
as the spread copy `{...prev}`). -/
def mergeFields (prevF acc : List (String × Value)) : List (String × Value) → List (String × Value)
  | [] => acc
  | (k, qv) :: rest =>
      let newV :=
        match lookupF prevF k with
        | some pv =>
            if isRecordV pv && isRecordV qv then deepMerge pv qv else qv
        | none => qv
      mergeFields prevF (setF acc k newV) rest
termination_by structural l => l
end

/-! ## The store -/

/-- The mutable state of one `Shoy` instance: the Version Log (`versions`,
a JS `Map` in insertion order), the Root Pointer (`rootHash`), the registered
subscribers (by identity, in registration order) and the retention bound. -/
structure Shoy where
  versions : List (Hash × Value)
  rootHash : Hash
  listeners : List Nat
  maxHistory : Nat
deriving Repr

/-- `Shoy.notify` (src/index.ts lines 499-501): synchronously invoke every
registered listener with the hash; returns the fired events. -/
def Shoy.notify (s : Shoy) (h : Hash) : List (Nat × Hash) :=
  s.listeners.map (fun i => (i, h))

/-- `Shoy.prune` (src/index.ts lines 536-544): when more than
`maxHistory + 1` entries are held, delete the oldest-inserted keys until the
bound is met. -/
def pruneF (mh : Nat) (l : List (Hash × Value)) : List (Hash × Value) :=
  if mh = 0 then l
  else if l.length > mh + 1 then
    ((l.map Prod.fst).take (l.length - (mh + 1))).foldl delF l
  else l

/-- `Shoy.commit` (src/index.ts lines 430-453).  `validateState` never
throws on a tree value (a Lean tree cannot contain itself), so the success
path is total here: hash the state, `Map.set` it, prune (for
`maxHistory > 0`) or delete every other key (for `maxHistory = 0`), move the
Root Pointer, notify.  Returns the new hash, the new state and the fired
events. -/
def Shoy.commit (s : Shoy) (state : Value) : Hash × Shoy × List (Nat × Hash) :=
  let h := hashV state
  let vs1 := setF s.versions h state
  let vs2 := if s.maxHistory > 0 then pruneF s.maxHistory vs1
             else vs1.filter (fun kv => kv.1 == h)
  let s' : Shoy := { s with versions := vs2, rootHash := h }
  (h, s', s'.notify h)

/-- `Shoy.current` (src/index.ts lines 481-489): `none` models the thrown
`"Shoy corrupted – rootHash missing"` Corruption error. -/
def Shoy.current (s : Shoy) : Option Value :=
  lookupF s.versions s.rootHash

/-- `currentHash` accessor. -/
def Shoy.currentHash (s : Shoy) : Hash := s.rootHash

/-- A caller-supplied patch: a replacement/partial value or an updater
function (`typeof patch === "function"`). -/
inductive Patch where
  | val (v : Value)
  | fn (f : Value → Value)

/-- `Shoy.apply` (src/index.ts lines 455-479): read `current` (`none`
propagates the Corruption error), resolve a function patch, then either the
primitive fast path (`Object.is` short-circuit) or the merge path
(`deepMerge`, hash comparison short-circuit, commit). -/
def Shoy.apply (s : Shoy) (p : Patch) : Option (Hash × Shoy × List (Nat × Hash)) :=
  match s.current with
  | none => none
  | some prev =>
    let patchResult := match p with | .val v => v | .fn f => f prev
    if isPrimitive prev && isPrimitive patchResult then
      if objectIs prev patchResult then some (s.rootHash, s, [])
      else some (s.commit patchResult)
    else
      let next := deepMerge prev patchResult
      let nextHash := hashV next
      if nextHash == s.rootHash then some (s.rootHash, s, [])
      else some (s.commit next)

/-- The constructor (src/index.ts lines 331-344): validate (trivial on
trees), hash the initial state, insert it as the sole entry, set the Root
Pointer. -/
def Shoy.construct (initial : Value) (mh : Nat) : Shoy :=
  let h := hashV initial
  { versions := [(h, initial)], rootHash := h, listeners := [], maxHistory := mh }

/-- `Shoy.subscribe` (src/index.ts lines 495-498): listeners form a
`Set`, so re-registering an already registered identity is a no-op. -/
def Shoy.subscribe (s : Shoy) (i : Nat) : Shoy :=
  if s.listeners.contains i then s else { s with listeners := s.listeners ++ [i] }

/-- `Shoy.history` (src/index.ts lines 532-534). -/
def Shoy.history (s : Shoy) : List Hash :=
  if s.maxHistory > 0 then s.versions.map Prod.fst else []

/-- `Shoy.revert` (src/index.ts lines 503-508). -/
def Shoy.revert (s : Shoy) (h : Hash) : Bool × Shoy × List (Nat × Hash) :=
  if s.maxHistory = 0 || !(hasF s.versions h) then (false, s, [])
  else
    let s' : Shoy := { s with rootHash := h }
    (true, s', s'.notify h)

/-- `Shoy.undo` (src/index.ts lines 510-519).  `indexOf` yields `-1` when
the root is absent from `history`, modelled by an integer index. -/
def Shoy.undo (s : Shoy) : Bool × Shoy × List (Nat × Hash) :=
  if s.maxHistory = 0 then (false, s, [])
  else
    let hist := s.history
    let currentIdx : Int :=
      match hist.findIdx? (fun x => x == s.rootHash) with
      | none => -1
      | some i => (i : Int)
    if currentIdx ≤ 0 then (false, s, [])
    else
      let prevHash := hist.getD (currentIdx - 1).toNat ""
      let s' : Shoy := { s with rootHash := prevHash }
      (true, s', s'.notify prevHash)

/-- `Shoy.redo` (src/index.ts lines 521-530). -/
def Shoy.redo (s : Shoy) : Bool × Shoy × List (Nat × Hash) :=
  if s.maxHistory = 0 then (false, s, [])
  else
    let hist := s.history
    let currentIdx : Int :=
      match hist.findIdx? (fun x => x == s.rootHash) with
      | none => -1
      | some i => (i : Int)
    if currentIdx ≥ (hist.length : Int) - 1 then (false, s, [])
    else
      let nextHash := hist.getD (currentIdx + 1).toNat ""
      let s' : Shoy := { s with rootHash := nextHash }
      (true, s', s'.notify nextHash)

/-- One public mutating operation. -/
inductive Op where
  | apply (p : Patch)
  | revert (h : Hash)
  | undo
  | redo

/-- Run one operation for its state effect.  A failed `apply` (Corruption
throw) leaves the state unchanged, as the exception aborts before any
mutation. -/
def Shoy.runOp (s : Shoy) : Op → Shoy
  | .apply p => match s.apply p with | some (_, s', _) => s' | none => s
  | .revert h => (s.revert h).2.1
  | .undo => s.undo.2.1
  | .redo => s.redo.2.1

/-- Run a sequence of public operations. -/
def Shoy.runOps (s : Shoy) (ops : List Op) : Shoy := ops.foldl Shoy.runOp s

/-- The store invariant: unique Version Log keys (a JS `Map` cannot hold a
key twice), the Root Pointer present in the log, every entry keyed by the
fingerprint of its value, and the retention bound. -/
def Shoy.Inv (s : Shoy) : Prop :=
  (s.versions.map Prod.fst).Nodup ∧
  s.rootHash ∈ s.versions.map Prod.fst ∧
  (∀ kv ∈ s.versions, hashV kv.2 = kv.1) ∧
  (if s.maxHistory = 0 then s.versions.length = 1 else s.versions.length ≤ s.maxHistory + 1)

/-! ## Heap values (reference cycles, for claim C1)

JS objects live on a heap and may reference themselves.  `HVal` is a slot
(primitive or reference), `HObj` one heap object, a heap an association of
addresses to objects. -/

inductive HVal where
  | prim (p : Prim)
  | ref (a : Nat)
deriving DecidableEq, Repr

inductive HObj where
  | arr (items : List HVal)
  | record (fields : List (String × HVal))
deriving DecidableEq, Repr

/-- Dereference an address. -/
def lookupH (heap : List (Nat × HObj)) (a : Nat) : Option HObj :=
  (heap.find? (fun p => p.1 == a)).map (fun p => p.2)

/-- The addresses directly referenced by a list of slots (the `isObject`
children the recursive calls visit). -/
def childRefs : List HVal → List Nat
  | [] => []
  | .prim _ :: rest => childRefs rest
  | .ref a :: rest => a :: childRefs rest

/-- `Shoy.checkCircularReference` (src/index.ts lines 560-580) on the heap:
path-scoped visited set (a fresh copy per branch), throwing — returning
`true` — exactly when a path from the start revisits an object.  The fuel
bounds recursion depth; every theorem below supplies ample fuel. -/
def checkCircularReference (heap : List (Nat × HObj)) : Nat → List Nat → Nat → Bool
  | 0, _, _ => false
  | fuel + 1, visited, a =>
      if visited.contains a then true
      else
        match lookupH heap a with
        | none => false
        | some (.arr items) => (childRefs items).any (fun b => checkCircularReference heap fuel (a :: visited) b)
        | some (.record fields) =>
            (childRefs (fields.map Prod.snd)).any (fun b => checkCircularReference heap fuel (a :: visited) b)

mutual
/-- `Shoy.fastObjectHash` on the heap, fuel-bounded: `none` when the
computation exceeds the given recursion depth.  On a value that contains
itself the result is `none` for every fuel: the JS original recurses without
any cycle check and overflows the call stack. -/
def fastObjectHashH (heap : List (Nat × HObj)) : Nat → Nat → Option String
  | 0, _ => none
  | fuel + 1, a =>
      match lookupH heap a with
      | none => none
      | some (.arr items) =>
          (hImageList heap fuel items).map
            (fun ss => "[" ++ String.intercalate "," ss ++ "]")
      | some (.record fields) =>
          (hImageFields heap fuel fields).map
            (fun ps => "\x7b" ++ String.intercalate ","
              ((sortByKey ps).map (fun kv => kv.1 ++ ":" ++ kv.2)) ++ "\x7d")
def hImageList (heap : List (Nat × HObj)) : Nat → List HVal → Option (List String)
  | _, [] => some []
  | fuel, .prim p :: rest =>
      (hImageList heap fuel rest).map (fun ss => primToString p :: ss)
  | fuel, .ref a :: rest =>
      match fastObjectHashH heap fuel a, hImageList heap fuel rest with
      | some s, some ss => some (s :: ss)
      | _, _ => none
def hImageFields (heap : List (Nat × HObj)) : Nat → List (String × HVal) → Option (List (String × String))
  | _, [] => some []
  | fuel, (k, .prim p) :: rest =>
      (hImageFields heap fuel rest).map (fun ps => (k, primToString p) :: ps)
  | fuel, (k, .ref a) :: rest =>
      match fastObjectHashH heap fuel a, hImageFields heap fuel rest with
      | some s, some ps => some ((k, s) :: ps)
      | _, _ => none
end


/-- Remove the first entry with the given key (proof-layer helper). -/
def eraseKeyF {β : Type} : List (String × β) → String → List (String × β)
  | [], _ => []
  | kv :: rest, k => if kv.1 = k then rest else kv :: eraseKeyF rest k

/-- The candidate value `apply` resolves a patch to (the Patch Resolver of
the specification): wholesale for the primitive fast path, `deepMerge`
otherwise.  Mirrors the branch structure of `Shoy.apply`. -/
def resolveCandidate (prev patchResult : Value) : Value :=
  if isPrimitive prev && isPrimitive patchResult then patchResult
  else deepMerge prev patchResult

/-- The key ordering used on rendered field pairs. -/
def pairLe {β : Type} (x y : String × β) : Prop := jsLe x.1 y.1 = true

/-- The heap of the repository's own apply-with-cycle test
(`src/__tests__/shoy.test.ts` lines 92-100): address 0 is
`circular = {name: "new"}; circular.self = circular`; address 1 is
`next = deepMerge({name: "test"}, circular) = {name: "new", self: circular}`,
the candidate `Shoy.apply` builds and then hashes. -/
def circularHeap : List (Nat × HObj) :=
  [(0, .record [("name", .prim (.str "new")), ("self", .ref 0)]),
   (1, .record [("name", .prim (.str "new")), ("self", .ref 0)])]

/-! ## Association-list lemmas -/

theorem lookupF_cons {β : Type} (k' : String) (v : β) (l : List (String × β)) (k : String) :
    lookupF ((k', v) :: l) k = if k' = k then some v else lookupF l k := by
  by_cases h : k' = k <;> simp [lookupF, List.find?_cons, h]

theorem lookupF_isSome_iff {β : Type} (l : List (String × β)) (k : String) :
    (lookupF l k).isSome = true ↔ k ∈ keysOf l := by
  induction l with
  | nil => simp [lookupF, keysOf]
  | cons kv rest ih =>
    obtain ⟨k', v⟩ := kv
    rw [lookupF_cons]
    by_cases h : k' = k
    · simp [keysOf, h]
    · simp only [h, if_false, keysOf, List.map_cons, List.mem_cons]
      rw [ih]
      constructor
      · exact fun hm => Or.inr hm
      · rintro (he | hm)
        · exact absurd he.symm h
        · exact hm

theorem lookupF_eq_none_iff {β : Type} (l : List (String × β)) (k : String) :
    lookupF l k = none ↔ k ∉ keysOf l := by
  rw [← lookupF_isSome_iff, Option.isSome_iff_ne_none]
  tauto

theorem lookupF_mem {β : Type} {l : List (String × β)} {k : String} {v : β}
    (h : lookupF l k = some v) : (k, v) ∈ l := by
  induction l with
  | nil => simp [lookupF] at h
  | cons kv rest ih =>
    obtain ⟨k', v'⟩ := kv
    rw [lookupF_cons] at h
    by_cases he : k' = k
    · simp [he] at h
      subst he h
      exact List.mem_cons_self _ _
    · simp [he] at h
      exact List.mem_cons_of_mem _ (ih h)

theorem lookupF_mem_keys {β : Type} {l : List (String × β)} {k : String} {v : β}
    (h : lookupF l k = some v) : k ∈ keysOf l := by
  rw [← lookupF_isSome_iff, h]
  rfl

theorem lookupF_append_left {β : Type} {l : List (String × β)} (l' : List (String × β))
    {k : String} {v : β} (h : lookupF l k = some v) :
    lookupF (l ++ l') k = some v := by
  simp only [lookupF] at h ⊢
  rw [List.find?_append]
  cases hf : l.find? (fun kv => kv.1 == k) with
  | none => rw [hf] at h; simp at h
  | some kv => rw [hf] at h; simp [hf, h]

theorem lookupF_append_right {β : Type} {l l' : List (String × β)}
    {k : String} (h : k ∉ keysOf l) :
    lookupF (l ++ l') k = lookupF l' k := by
  have hn : lookupF l k = none := (lookupF_eq_none_iff l k).mpr h
  simp only [lookupF] at hn ⊢
  rw [List.find?_append]
  cases hf : l.find? (fun kv => kv.1 == k) with
  | none => simp
  | some kv => rw [hf] at hn; simp at hn

theorem containsKey_iff {β : Type} (l : List (String × β)) (k : String) :
    (l.map Prod.fst).contains k = true ↔ k ∈ keysOf l := by
  simp [keysOf, List.contains_iff_exists_mem_beq]

theorem setF_of_mem {β : Type} {l : List (String × β)} {k : String} (v : β)
    (h : k ∈ keysOf l) :
    setF l k v = l.map (fun kv => if kv.1 = k then (k, v) else kv) := by
  rw [setF, if_pos ((containsKey_iff l k).mpr h)]
  congr 1
  funext kv
  by_cases he : kv.1 = k <;> simp [he]

theorem setF_of_not_mem {β : Type} {l : List (String × β)} {k : String} (v : β)
    (h : k ∉ keysOf l) : setF l k v = l ++ [(k, v)] := by
  rw [setF, if_neg]
  intro hc
  exact h ((containsKey_iff l k).mp hc)

theorem keysOf_setF_of_mem {β : Type} {l : List (String × β)} {k : String} (v : β)
    (h : k ∈ keysOf l) : keysOf (setF l k v) = keysOf l := by
  rw [setF_of_mem v h]
  simp only [keysOf, List.map_map]
  congr 1
  funext kv
  by_cases he : kv.1 = k <;> simp [he]

theorem keysOf_setF_of_not_mem {β : Type} {l : List (String × β)} {k : String} (v : β)
    (h : k ∉ keysOf l) : keysOf (setF l k v) = keysOf l ++ [k] := by
  rw [setF_of_not_mem v h]
  simp [keysOf]

theorem mem_of_mem_setF {β : Type} {l : List (String × β)} {k : String} {v : β}
    {kv : String × β} (h : kv ∈ setF l k v) : kv ∈ l ∨ kv = (k, v) := by
  by_cases hm : k ∈ keysOf l
  · rw [setF_of_mem v hm] at h
    rcases List.mem_map.mp h with ⟨kv', hmem, heq⟩
    by_cases he : kv'.1 = k
    · simp only [he, if_true] at heq
      exact Or.inr heq.symm
    · simp only [he, if_false] at heq
      exact Or.inl (heq ▸ hmem)
  · rw [setF_of_not_mem v hm] at h
    rcases List.mem_append.mp h with h' | h'
    · exact Or.inl h'
    · simp only [List.mem_singleton] at h'
      exact Or.inr h'

theorem lookupF_map_replace_self {β : Type} {l : List (String × β)} {k : String} (v : β)
    (h : k ∈ keysOf l) :
    lookupF (l.map (fun kv => if kv.1 = k then (k, v) else kv)) k = some v := by
  induction l with
  | nil => simp [keysOf] at h
  | cons kv rest ih =>
    obtain ⟨ka, va⟩ := kv
    by_cases he : ka = k
    · simp only [List.map_cons, if_pos he, lookupF_cons, if_pos rfl, if_true]
    · simp only [List.map_cons]
      rw [if_neg (by simpa using he)]
      rw [lookupF_cons, if_neg he]
      refine ih ?_
      rcases (by simpa [keysOf] using h : k = ka ∨ ∃ x, (k, x) ∈ rest) with he' | ⟨x, hx⟩
      · exact absurd he'.symm he
      · simp only [keysOf, List.mem_map]
        exact ⟨(k, x), hx, rfl⟩

theorem lookupF_map_replace_ne {β : Type} (l : List (String × β)) {k k' : String} (v : β)
    (h : k' ≠ k) :
    lookupF (l.map (fun kv => if kv.1 = k then (k, v) else kv)) k' = lookupF l k' := by
  induction l with
  | nil => simp
  | cons kv rest ih =>
    obtain ⟨ka, va⟩ := kv
    by_cases he : ka = k
    · simp only [List.map_cons, if_pos he, lookupF_cons]
      rw [if_neg (fun hh => h hh.symm), if_neg (fun hh => h (he ▸ hh).symm)]
      exact ih
    · simp only [List.map_cons]
      rw [if_neg (by simpa using he)]
      rw [lookupF_cons, lookupF_cons]
      by_cases he' : ka = k'
      · simp [he']
      · rw [if_neg he', if_neg he']
        exact ih

theorem lookupF_setF_self {β : Type} (l : List (String × β)) (k : String) (v : β) :
    lookupF (setF l k v) k = some v := by
  by_cases hm : k ∈ keysOf l
  · rw [setF_of_mem v hm]
    exact lookupF_map_replace_self v hm
  · rw [setF_of_not_mem v hm, lookupF_append_right hm, lookupF_cons, if_pos rfl]

theorem lookupF_setF_ne {β : Type} (l : List (String × β)) {k k' : String} (v : β)
    (h : k' ≠ k) : lookupF (setF l k v) k' = lookupF l k' := by
  by_cases hm : k ∈ keysOf l
  · rw [setF_of_mem v hm]
    exact lookupF_map_replace_ne l v h
  · rw [setF_of_not_mem v hm]
    cases hl : lookupF l k' with
    | some w => exact lookupF_append_left _ hl
    | none =>
      rw [lookupF_append_right ((lookupF_eq_none_iff l k').mp hl), lookupF_cons,
        if_neg (fun hh => h hh.symm)]
      rfl

theorem delF_cons_self {β : Type} {k : String} {v : β} {t : List (String × β)}
    (h : k ∉ keysOf t) : delF ((k, v) :: t) k = t := by
  simp only [delF, List.filter_cons]
  rw [show ((k, v).1 != k) = false by simp]
  simp only [Bool.false_eq_true, if_false]
  refine List.filter_eq_self.mpr ?_
  intro kv hm
  simp only [bne_iff_ne, ne_eq]
  intro he
  exact h (he ▸ List.mem_map_of_mem Prod.fst hm)

theorem foldl_delF_take {β : Type} :
    ∀ (l : List (String × β)), (keysOf l).Nodup →
    ∀ j, ((keysOf l).take j).foldl delF l = l.drop j := by
  intro l
  induction l with
  | nil => intro _ j; simp [keysOf]
  | cons kv t ih =>
    obtain ⟨k, v⟩ := kv
    intro hnd j
    have hk : k ∉ keysOf t := by
      simp only [keysOf, List.map_cons, List.nodup_cons] at hnd
      exact hnd.1
    have hndt : (keysOf t).Nodup := by
      simp only [keysOf, List.map_cons, List.nodup_cons] at hnd
      exact hnd.2
    cases j with
    | zero => simp
    | succ j =>
      simp only [keysOf, List.map_cons, List.take_succ_cons, List.foldl_cons, List.drop_succ_cons]
      rw [delF_cons_self hk]
      exact ih hndt j

theorem pruneF_eq_drop {mh : Nat} (hmh : 0 < mh) {l : List (Hash × Value)}
    (hnd : (keysOf l).Nodup) :
    pruneF mh l = l.drop (l.length - (mh + 1)) := by
  rw [pruneF, if_neg (Nat.pos_iff_ne_zero.mp hmh)]
  by_cases hl : l.length > mh + 1
  · rw [if_pos hl]
    exact foldl_delF_take l hnd (l.length - (mh + 1))
  · rw [if_neg hl]
    have : l.length - (mh + 1) = 0 := Nat.sub_eq_zero_of_le (Nat.le_of_not_lt hl)
    rw [this, List.drop_zero]

theorem keysOf_append {β : Type} (l l' : List (String × β)) :
    keysOf (l ++ l') = keysOf l ++ keysOf l' := by
  simp [keysOf]

theorem keysOf_drop {β : Type} (l : List (String × β)) (n : Nat) :
    keysOf (l.drop n) = (keysOf l).drop n := by
  simp [keysOf, List.map_drop]

theorem filter_key_eq_of_fresh {β : Type} {l : List (String × β)} {k : String} {v : β}
    (h : k ∉ keysOf l) :
    (l ++ [(k, v)]).filter (fun kv => kv.1 == k) = [(k, v)] := by
  rw [List.filter_append]
  have h1 : l.filter (fun kv => kv.1 == k) = [] := by
    rw [List.filter_eq_nil_iff]
    intro kv hm
    simp only [beq_iff_eq]
    intro he
    exact h (he ▸ List.mem_map_of_mem Prod.fst hm)
  rw [h1]
  simp

/-! ## Commit and invariant lemmas -/

theorem current_of_inv {s : Shoy} (h : s.Inv) : ∃ v, s.current = some v := by
  obtain ⟨-, hroot, -, -⟩ := h
  have := (lookupF_isSome_iff s.versions s.rootHash).mpr (by simpa [keysOf] using hroot)
  rcases Option.isSome_iff_exists.mp this with ⟨v, hv⟩
  exact ⟨v, hv⟩

/-- The value the Root Pointer resolves to hashes back to the Root Pointer. -/
theorem hash_current_of_inv {s : Shoy} (h : s.Inv) {v : Value}
    (hv : s.current = some v) : hashV v = s.rootHash := by
  obtain ⟨-, -, hcons, -⟩ := h
  exact hcons _ (lookupF_mem hv)

/-- Committing a fresh fingerprint appends the entry and drops the oldest
entries beyond the retention bound (`maxHistory > 0`). -/
theorem commit_fresh_pos {s : Shoy} (v : Value)
    (hmh : 0 < s.maxHistory)
    (hnd : (keysOf s.versions).Nodup)
    (hfresh : hashV v ∉ keysOf s.versions) :
    s.commit v =
      (hashV v,
       { s with
          versions := (s.versions ++ [(hashV v, v)]).drop
            ((s.versions.length + 1) - (s.maxHistory + 1)),
          rootHash := hashV v },
       s.listeners.map (fun i => (i, hashV v))) := by
  simp only [Shoy.commit]
  rw [setF_of_not_mem v hfresh]
  rw [if_pos hmh]
  have hnd' : (keysOf (s.versions ++ [(hashV v, v)])).Nodup := by
    rw [keysOf_append]
    simp only [keysOf, List.map_cons, List.map_nil]
    rw [List.nodup_append]
    refine ⟨hnd, List.nodup_singleton _, ?_⟩
    intro x hx hx2
    simp only [List.mem_singleton] at hx2
    exact hfresh (by simpa [keysOf, hx2] using hx)
  rw [pruneF_eq_drop hmh hnd']
  simp [Shoy.notify, List.length_append]

/-- Committing a fresh fingerprint with history disabled keeps only the new
entry. -/
theorem commit_fresh_zero {s : Shoy} (v : Value)
    (hmh : s.maxHistory = 0)
    (hfresh : hashV v ∉ keysOf s.versions) :
    s.commit v =
      (hashV v,
       { s with versions := [(hashV v, v)], rootHash := hashV v },
       s.listeners.map (fun i => (i, hashV v))) := by
  simp only [Shoy.commit]
  rw [setF_of_not_mem v hfresh]
  rw [if_neg (by omega), filter_key_eq_of_fresh hfresh]
  simp [Shoy.notify]

theorem hasF_iff {β : Type} (l : List (String × β)) (k : String) :
    hasF l k = true ↔ k ∈ keysOf l := by
  simp [hasF, lookupF_isSome_iff]

/-- Committing an already present fingerprint (`maxHistory > 0`, log within
bounds) replaces the entry in place: no entry moves, none is evicted. -/
theorem commit_stale_pos {s : Shoy} (v : Value)
    (hmh : 0 < s.maxHistory)
    (hnd : (keysOf s.versions).Nodup)
    (hsize : s.versions.length ≤ s.maxHistory + 1)
    (hstale : hashV v ∈ keysOf s.versions) :
    s.commit v =
      (hashV v,
       { s with versions := setF s.versions (hashV v) v, rootHash := hashV v },
       s.listeners.map (fun i => (i, hashV v))) := by
  simp only [Shoy.commit]
  rw [if_pos hmh]
  have hk : keysOf (setF s.versions (hashV v) v) = keysOf s.versions :=
    keysOf_setF_of_mem v hstale
  have hlen : (setF s.versions (hashV v) v).length = s.versions.length := by
    have := congrArg List.length hk
    simpa [keysOf] using this
  rw [pruneF_eq_drop hmh (hk ▸ hnd), hlen,
    Nat.sub_eq_zero_of_le (Nat.le_trans hsize (Nat.le_refl _)), List.drop_zero]
  simp [Shoy.notify]

/-- Committing with history disabled over a one-entry log whose key is the
new fingerprint: the single entry is replaced. -/
theorem commit_stale_zero {s : Shoy} (v : Value)
    (hmh : s.maxHistory = 0)
    (hsize : s.versions.length = 1)
    (hstale : hashV v ∈ keysOf s.versions) :
    s.commit v =
      (hashV v,
       { s with versions := [(hashV v, v)], rootHash := hashV v },
       s.listeners.map (fun i => (i, hashV v))) := by
  obtain ⟨kv, hv⟩ : ∃ kv, s.versions = [kv] := by
    cases hvs : s.versions with
    | nil => rw [hvs] at hsize; simp at hsize
    | cons a t =>
      cases t with
      | nil => exact ⟨a, rfl⟩
      | cons b t' => rw [hvs] at hsize; simp at hsize
  have hk : kv.1 = hashV v := by
    rw [hv] at hstale
    have : hashV v = kv.1 := by simpa [keysOf] using hstale
    exact this.symm
  simp only [Shoy.commit]
  rw [if_neg (by omega)]
  rw [hv]
  rw [setF_of_mem v (by simp [keysOf, hk])]
  simp [Shoy.notify, hk]

/-- `commit` preserves the store invariant and the configuration, and moves
the Root Pointer to the committed fingerprint. -/
theorem commit_inv {s : Shoy} (hInv : s.Inv) (v : Value) :
    (s.commit v).2.1.Inv ∧
    (s.commit v).2.1.maxHistory = s.maxHistory ∧
    (s.commit v).2.1.listeners = s.listeners ∧
    (s.commit v).2.1.rootHash = hashV v ∧
    (s.commit v).1 = hashV v := by
  obtain ⟨hnd, hroot, hcons, hsize⟩ := hInv
  by_cases hmh : s.maxHistory = 0
  · rw [if_pos hmh] at hsize
    by_cases hfresh : hashV v ∈ keysOf s.versions
    · rw [commit_stale_zero v hmh hsize hfresh]
      refine ⟨⟨by simp [keysOf], by simp [keysOf], ?_, by simp [hmh]⟩, rfl, rfl, rfl, rfl⟩
      intro kv hkv
      simp only [List.mem_singleton] at hkv
      rw [hkv]
    · rw [commit_fresh_zero v hmh (by simpa [keysOf] using hfresh)]
      refine ⟨⟨by simp [keysOf], by simp [keysOf], ?_, by simp [hmh]⟩, rfl, rfl, rfl, rfl⟩
      intro kv hkv
      simp only [List.mem_singleton] at hkv
      rw [hkv]
  · have hmh' : 0 < s.maxHistory := Nat.pos_of_ne_zero hmh
    rw [if_neg hmh] at hsize
    by_cases hfresh : hashV v ∈ keysOf s.versions
    · rw [commit_stale_pos v hmh' (by simpa [keysOf] using hnd) hsize hfresh]
      have hk := keysOf_setF_of_mem (l := s.versions) v hfresh
      have hlen : (setF s.versions (hashV v) v).length = s.versions.length := by
        have := congrArg List.length hk
        simpa [keysOf] using this
      refine ⟨⟨?_, ?_, ?_, ?_⟩, rfl, rfl, rfl, rfl⟩
      · simpa [keysOf] using (hk ▸ (by simpa [keysOf] using hnd) :
          (keysOf (setF s.versions (hashV v) v)).Nodup)
      · simpa [keysOf] using (hk ▸ hfresh :
          hashV v ∈ keysOf (setF s.versions (hashV v) v))
      · intro kv hkv
        rcases mem_of_mem_setF hkv with hold | hnew
        · exact hcons kv hold
        · rw [hnew]
      · simp only [if_neg hmh]
        omega
    · rw [commit_fresh_pos v hmh' (by simpa [keysOf] using hnd)
        (by simpa [keysOf] using hfresh)]
      have hnd2 : (keysOf (s.versions ++ [(hashV v, v)])).Nodup := by
        rw [keysOf_append]
        simp only [keysOf, List.map_cons, List.map_nil]
        rw [List.nodup_append]
        refine ⟨by simpa [keysOf] using hnd, List.nodup_singleton _, ?_⟩
        intro x hx hx2
        simp only [List.mem_singleton] at hx2
        exact hfresh (by simpa [keysOf, hx2] using hx)
      set j := (s.versions.length + 1) - (s.maxHistory + 1) with hj
      have hjle : j ≤ s.versions.length := by omega
      have hdrop : (s.versions ++ [(hashV v, v)]).drop j
          = s.versions.drop j ++ [(hashV v, v)] :=
        List.drop_append_of_le_length hjle
      refine ⟨⟨?_, ?_, ?_, ?_⟩, rfl, rfl, rfl, rfl⟩
      · have : keysOf ((s.versions ++ [(hashV v, v)]).drop j)
            = (keysOf (s.versions ++ [(hashV v, v)])).drop j := keysOf_drop _ _
        rw [show ((s.versions ++ [(hashV v, v)]).drop j).map Prod.fst
            = keysOf ((s.versions ++ [(hashV v, v)]).drop j) from rfl, this]
        exact hnd2.sublist (List.drop_sublist _ _)
      · rw [show ((s.versions ++ [(hashV v, v)]).drop j).map Prod.fst
            = keysOf ((s.versions ++ [(hashV v, v)]).drop j) from rfl, hdrop,
          keysOf_append]
        simp [keysOf]
      · intro kv hkv
        rw [hdrop] at hkv
        rcases List.mem_append.mp hkv with hold | hnew
        · exact hcons kv (List.mem_of_mem_drop hold)
        · simp only [List.mem_singleton] at hnew
          rw [hnew]
      · simp only [if_neg hmh]
        rw [List.length_drop, List.length_append]
        simp only [List.length_singleton]
        omega

theorem getD_mem {α : Type} (l : List α) (n : Nat) (d : α) (h : n < l.length) :
    l.getD n d ∈ l := by
  rw [List.getD_eq_getElem?_getD, List.getElem?_eq_getElem h]
  exact List.getElem_mem h

theorem construct_inv (v : Value) (mh : Nat) : (Shoy.construct v mh).Inv := by
  refine ⟨by simp [Shoy.construct], by simp [Shoy.construct], ?_, ?_⟩
  · intro kv hkv
    simp only [Shoy.construct, List.mem_singleton] at hkv
    rw [hkv]
  · simp only [Shoy.construct]
    split_ifs <;> simp

/-- `apply` never fails on an invariant-satisfying store, and preserves the
invariant and the configuration. -/
theorem apply_some {s : Shoy} (hInv : s.Inv) (p : Patch) :
    ∃ r s' ev, s.apply p = some (r, s', ev) ∧ s'.Inv ∧
      s'.maxHistory = s.maxHistory ∧ s'.listeners = s.listeners := by
  obtain ⟨prev, hprev⟩ := current_of_inv hInv
  simp only [Shoy.apply, hprev]
  set patchResult := (match p with | .val v => v | .fn f => f prev) with hpr
  by_cases h1 : isPrimitive prev && isPrimitive patchResult
  · rw [if_pos h1]
    by_cases h2 : objectIs prev patchResult
    · rw [if_pos h2]
      exact ⟨s.rootHash, s, [], rfl, hInv, rfl, rfl⟩
    · rw [if_neg h2]
      obtain ⟨hInv', hm, hl, -, -⟩ := commit_inv hInv patchResult
      exact ⟨_, _, _, rfl, hInv', hm, hl⟩
  · rw [if_neg h1]
    by_cases h3 : hashV (deepMerge prev patchResult) == s.rootHash
    · rw [if_pos h3]
      exact ⟨s.rootHash, s, [], rfl, hInv, rfl, rfl⟩
    · rw [if_neg h3]
      obtain ⟨hInv', hm, hl, -, -⟩ := commit_inv hInv (deepMerge prev patchResult)
      exact ⟨_, _, _, rfl, hInv', hm, hl⟩

theorem revert_inv {s : Shoy} (hInv : s.Inv) (h : Hash) :
    (s.revert h).2.1.Inv ∧ (s.revert h).2.1.maxHistory = s.maxHistory ∧
      (s.revert h).2.1.listeners = s.listeners := by
  obtain ⟨hnd, hroot, hcons, hsize⟩ := hInv
  rw [Shoy.revert]
  cases hh : hasF s.versions h with
  | false =>
    rw [if_pos (by simp [hh])]
    exact ⟨⟨hnd, hroot, hcons, hsize⟩, rfl, rfl⟩
  | true =>
    have hmem : h ∈ keysOf s.versions := (hasF_iff _ _).mp hh
    by_cases hmh : s.maxHistory = 0
    · rw [if_pos (by simp [hh, hmh])]
      exact ⟨⟨hnd, hroot, hcons, hsize⟩, rfl, rfl⟩
    · rw [if_neg (by simp [hh, hmh])]
      exact ⟨⟨hnd, by simpa [keysOf] using hmem, hcons, hsize⟩, rfl, rfl⟩

theorem undo_inv {s : Shoy} (hInv : s.Inv) :
    (s.undo).2.1.Inv ∧ (s.undo).2.1.maxHistory = s.maxHistory ∧
      (s.undo).2.1.listeners = s.listeners := by
  obtain ⟨hnd, hroot, hcons, hsize⟩ := hInv
  rw [Shoy.undo]
  by_cases hmh : s.maxHistory = 0
  · rw [if_pos hmh]
    exact ⟨⟨hnd, hroot, hcons, hsize⟩, rfl, rfl⟩
  · rw [if_neg hmh]
    cases hfi : (s.history).findIdx? (fun x => x == s.rootHash) with
    | none =>
      simp only [hfi]
      rw [if_pos (by norm_num)]
      exact ⟨⟨hnd, hroot, hcons, hsize⟩, rfl, rfl⟩
    | some i =>
      simp only [hfi]
      by_cases hi : (i : Int) ≤ 0
      · rw [if_pos hi]
        exact ⟨⟨hnd, hroot, hcons, hsize⟩, rfl, rfl⟩
      · rw [if_neg hi]
        have hlt : i < s.history.length :=
          (List.findIdx?_eq_some_iff_findIdx_eq.mp hfi).1
        have htn : ((i : Int) - 1).toNat = i - 1 := by omega
        rw [htn]
        refine ⟨⟨hnd, ?_, hcons, hsize⟩, rfl, rfl⟩
        have hmem : s.history.getD (i - 1) "" ∈ s.history :=
          getD_mem _ _ _ (by omega)
        simpa [Shoy.history, Nat.pos_of_ne_zero hmh] using hmem

theorem redo_inv {s : Shoy} (hInv : s.Inv) :
    (s.redo).2.1.Inv ∧ (s.redo).2.1.maxHistory = s.maxHistory ∧
      (s.redo).2.1.listeners = s.listeners := by
  obtain ⟨hnd, hroot, hcons, hsize⟩ := hInv
  rw [Shoy.redo]
  by_cases hmh : s.maxHistory = 0
  · rw [if_pos hmh]
    exact ⟨⟨hnd, hroot, hcons, hsize⟩, rfl, rfl⟩
  · rw [if_neg hmh]
    cases hfi : (s.history).findIdx? (fun x => x == s.rootHash) with
    | none =>
      simp only [hfi]
      by_cases hg : (-1 : Int) ≥ (s.history.length : Int) - 1
      · rw [if_pos hg]
        exact ⟨⟨hnd, hroot, hcons, hsize⟩, rfl, rfl⟩
      · rw [if_neg hg]
        have hlen : 1 ≤ s.history.length := by omega
        have htn : ((-1 : Int) + 1).toNat = 0 := by omega
        rw [htn]
        refine ⟨⟨hnd, ?_, hcons, hsize⟩, rfl, rfl⟩
        have hmem : s.history.getD 0 "" ∈ s.history := getD_mem _ _ _ (by omega)
        simpa [Shoy.history, Nat.pos_of_ne_zero hmh] using hmem
    | some i =>
      simp only [hfi]
      by_cases hg : (i : Int) ≥ (s.history.length : Int) - 1
      · rw [if_pos hg]
        exact ⟨⟨hnd, hroot, hcons, hsize⟩, rfl, rfl⟩
      · rw [if_neg hg]
        have hlt : i < s.history.length :=
          (List.findIdx?_eq_some_iff_findIdx_eq.mp hfi).1
        have htn : ((i : Int) + 1).toNat = i + 1 := by omega
        rw [htn]
        refine ⟨⟨hnd, ?_, hcons, hsize⟩, rfl, rfl⟩
        have hmem : s.history.getD (i + 1) "" ∈ s.history :=
          getD_mem _ _ _ (by omega)
        simpa [Shoy.history, Nat.pos_of_ne_zero hmh] using hmem

theorem runOp_inv {s : Shoy} (hInv : s.Inv) (op : Op) :
    (s.runOp op).Inv ∧ (s.runOp op).maxHistory = s.maxHistory ∧
      (s.runOp op).listeners = s.listeners := by
  cases op with
  | apply p =>
    obtain ⟨r, s', ev, happ, hInv', hm, hl⟩ := apply_some hInv p
    simp only [Shoy.runOp, happ]
    exact ⟨hInv', hm, hl⟩
  | revert h => exact revert_inv hInv h
  | undo => exact undo_inv hInv
  | redo => exact redo_inv hInv

theorem runOps_inv {s : Shoy} (hInv : s.Inv) (ops : List Op) :
    (s.runOps ops).Inv ∧ (s.runOps ops).maxHistory = s.maxHistory ∧
      (s.runOps ops).listeners = s.listeners := by
  induction ops generalizing s with
  | nil => exact ⟨hInv, rfl, rfl⟩
  | cons op rest ih =>
    obtain ⟨h1, h2, h3⟩ := runOp_inv hInv op
    obtain ⟨g1, g2, g3⟩ := ih h1
    have hstep : s.runOps (op :: rest) = (s.runOp op).runOps rest := by
      simp only [Shoy.runOps, List.foldl_cons]
    exact ⟨hstep ▸ g1, by rw [hstep, g2, h2], by rw [hstep, g3, h3]⟩

/-! ## Claim theorems: invariants (C3, C4, C5) -/

/-- C3: for every store (any initial value, any `maxHistory`) and every
sequence of public operations from construction, the Root Pointer is a
present key of the Version Log when the operation returns, and reading
`current` never raises the Corruption condition (`current` is `some`). -/
theorem C3_root_pointer_always_present (init : Value) (mh : Nat) (ops : List Op) :
    ((Shoy.construct init mh).runOps ops).rootHash
      ∈ keysOf ((Shoy.construct init mh).runOps ops).versions ∧
    (((Shoy.construct init mh).runOps ops).current).isSome = true := by
  obtain ⟨⟨hnd, hroot, hcons, hsize⟩, -, -⟩ := runOps_inv (construct_inv init mh) ops
  refine ⟨by simpa [keysOf] using hroot, ?_⟩
  rw [Shoy.current, lookupF_isSome_iff]
  simpa [keysOf] using hroot

/-- C4: with `maxHistory = 0`, after any finite sequence of `apply` calls
(tree patches are acyclic by construction), `history` is empty and the
Version Log holds exactly one entry. -/
theorem C4_retention_disabled (init : Value) (ps : List Patch) :
    ((Shoy.construct init 0).runOps (ps.map Op.apply)).history = [] ∧
    ((Shoy.construct init 0).runOps (ps.map Op.apply)).versions.length = 1 := by
  obtain ⟨⟨-, -, -, hsize⟩, hmh, -⟩ := runOps_inv (construct_inv init 0) (ps.map Op.apply)
  have hmh0 : ((Shoy.construct init 0).runOps (ps.map Op.apply)).maxHistory = 0 := by
    rw [hmh]
    simp [Shoy.construct]
  constructor
  · rw [Shoy.history, if_neg (by omega)]
  · rw [if_pos hmh0] at hsize
    exact hsize

/-- C5: with `maxHistory = N > 0`, the Version Log never exceeds `N + 1`
entries after any operation sequence; and whenever the `Map.set` of a commit
makes the entry count exceed `N + 1`, the pruned log is exactly the suffix
that drops the oldest-inserted entries. -/
theorem C5_retention_enabled (init : Value) (N : Nat) (hN : 0 < N) (ops : List Op) :
    ((Shoy.construct init N).runOps ops).versions.length ≤ N + 1 ∧
    (∀ s : Shoy, s.Inv → s.maxHistory = N → ∀ v : Value,
      (setF s.versions (hashV v) v).length > N + 1 →
      (s.commit v).2.1.versions =
        (setF s.versions (hashV v) v).drop
          ((setF s.versions (hashV v) v).length - (N + 1))) := by
  constructor
  · obtain ⟨⟨-, -, -, hsize⟩, hmh, -⟩ := runOps_inv (construct_inv init N) ops
    have hmhN : ((Shoy.construct init N).runOps ops).maxHistory = N := by
      rw [hmh]
      simp [Shoy.construct]
    rw [if_neg (by omega)] at hsize
    rw [hmhN] at hsize
    exact hsize
  · intro s hInv hmhN v hlen
    obtain ⟨hnd, -, -, -⟩ := hInv
    have hnd1 : (keysOf (setF s.versions (hashV v) v)).Nodup := by
      by_cases hm : hashV v ∈ keysOf s.versions
      · rw [keysOf_setF_of_mem v hm]
        simpa [keysOf] using hnd
      · rw [keysOf_setF_of_not_mem v hm]
        rw [List.nodup_append]
        refine ⟨by simpa [keysOf] using hnd, List.nodup_singleton _, ?_⟩
        intro x hx hx2
        simp only [List.mem_singleton] at hx2
        exact hm (hx2 ▸ hx)
    simp only [Shoy.commit]
    rw [if_pos (by omega)]
    rw [pruneF_eq_drop (by omega) hnd1]
    rw [hmhN]

/-- Witness for C5 at `N = 1` with three distinct applies from construction. -/
theorem C5_retention_enabled_witness :
    0 < 1 ∧
    ((Shoy.construct (.prim (.num 0)) 1).runOps
      [.apply (.val (.prim (.num 1))), .apply (.val (.prim (.num 2))),
       .apply (.val (.prim (.num 3)))]).versions.length ≤ 1 + 1 :=
  ⟨by decide,
   (C5_retention_enabled (.prim (.num 0)) 1 (by decide)
     [.apply (.val (.prim (.num 1))), .apply (.val (.prim (.num 2))),
      .apply (.val (.prim (.num 3)))]).1⟩

/-! ## Order facts for the key sort -/

theorem jsStrLt_irrefl (a : List Char) : jsStrLt a a = false := by
  induction a with
  | nil => rfl
  | cons c rest ih => simp [jsStrLt, ih]

theorem jsStrLt_trans {a b c : List Char} (h1 : jsStrLt a b = true)
    (h2 : jsStrLt b c = true) : jsStrLt a c = true := by
  induction a generalizing b c with
  | nil =>
    cases b with
    | nil => simp [jsStrLt] at h1
    | cons bc bt =>
      cases c with
      | nil => simp [jsStrLt] at h2
      | cons cc ct => simp [jsStrLt]
  | cons ac at' ih =>
    cases b with
    | nil => simp [jsStrLt] at h1
    | cons bc bt =>
      cases c with
      | nil => simp [jsStrLt] at h2
      | cons cc ct =>
        simp only [jsStrLt] at h1 h2 ⊢
        split_ifs at h1 h2 ⊢ <;>
          first
            | rfl
            | omega
            | exact ih h1 h2
            | simp_all

theorem jsStrLt_connex {a b : List Char} (h1 : jsStrLt a b = false)
    (h2 : jsStrLt b a = false) : a = b := by
  induction a generalizing b with
  | nil =>
    cases b with
    | nil => rfl
    | cons bc bt => simp [jsStrLt] at h1
  | cons ac at' ih =>
    cases b with
    | nil => simp [jsStrLt] at h2
    | cons bc bt =>
      simp only [jsStrLt] at h1 h2
      split_ifs at h1 h2 <;>
        first
          | omega
          | (have hval : ac.toNat = bc.toNat := by omega
             have hc : ac = bc := Char.eq_of_val_eq (UInt32.ext hval)
             rw [hc, ih h1 h2])
          | simp_all

theorem jsLe_refl (a : String) : jsLe a a = true := by
  simp [jsLe, jsStrLt_irrefl]

theorem jsLe_total (a b : String) : jsLe a b = true ∨ jsLe b a = true := by
  by_cases h1 : jsStrLt b.data a.data
  · right
    by_cases h2 : jsStrLt a.data b.data
    · have := jsStrLt_trans h2 h1
      rw [jsStrLt_irrefl] at this
      exact absurd this (by simp)
    · simp [jsLe, h2]
  · left
    simp [jsLe, h1]

theorem jsLe_antisymm {a b : String} (h1 : jsLe a b = true) (h2 : jsLe b a = true) :
    a = b := by
  simp only [jsLe, Bool.not_eq_true'] at h1 h2
  have hd := jsStrLt_connex h2 h1
  cases a
  cases b
  exact congrArg String.mk hd

theorem jsLe_trans {a b c : String} (h1 : jsLe a b = true) (h2 : jsLe b c = true) :
    jsLe a c = true := by
  simp only [jsLe, Bool.not_eq_true'] at h1 h2 ⊢
  by_cases hca : jsStrLt c.data a.data = true
  · exfalso
    by_cases hbc' : jsStrLt b.data c.data = true
    · have := jsStrLt_trans hbc' hca
      rw [this] at h1
      exact Bool.true_eq_false.mp h1
    · have hbc : b.data = c.data :=
        jsStrLt_connex (Bool.not_eq_true _ ▸ hbc' : jsStrLt b.data c.data = false) h2
      rw [← hbc] at hca
      rw [hca] at h1
      exact Bool.true_eq_false.mp h1
  · simpa using hca

/-! ## Induction principle for nested values -/

theorem value_induction {P : Value → Prop}
    (hp : ∀ p, P (.prim p))
    (ha : ∀ items, (∀ v ∈ items, P v) → P (.arr items))
    (ho : ∀ fields, (∀ kv ∈ fields, P kv.2) → P (.obj fields)) :
    ∀ v, P v := by
  have hsize : ∀ n v, sizeOf v ≤ n → P v := by
    intro n
    induction n with
    | zero =>
      intro v hv
      cases v <;> simp at hv
    | succ n ih =>
      intro v hv
      cases v with
      | prim p => exact hp p
      | arr items =>
        refine ha items (fun w hw => ih w ?_)
        have h1 := List.sizeOf_lt_of_mem hw
        have h2 : sizeOf (Value.arr items) = 1 + sizeOf items := by simp
        omega
      | obj fields =>
        refine ho fields (fun kv hkv => ih kv.2 ?_)
        have h1 := List.sizeOf_lt_of_mem hkv
        have h2 : sizeOf (Value.obj fields) = 1 + sizeOf fields := by simp
        have h3 : sizeOf kv.2 < sizeOf kv := by
          obtain ⟨k, v⟩ := kv
          simp
        omega
  exact fun v => hsize (sizeOf v) v (Nat.le_refl _)

/-! ## Sort correctness -/

theorem insertKV_perm {β : Type} (kv : String × β) (l : List (String × β)) :
    (insertKV kv l).Perm (kv :: l) := by
  induction l with
  | nil => simp [insertKV]
  | cons kv2 rest ih =>
    rw [insertKV]
    by_cases h : jsLe kv.1 kv2.1
    · rw [if_pos h]
    · rw [if_neg h]
      exact (ih.cons kv2).trans (List.Perm.swap kv kv2 rest)

theorem sortByKey_perm {β : Type} (l : List (String × β)) :
    (sortByKey l).Perm l := by
  induction l with
  | nil => simp [sortByKey]
  | cons kv rest ih =>
    rw [sortByKey]
    exact (insertKV_perm kv (sortByKey rest)).trans (ih.cons kv)

theorem insertKV_sorted {β : Type} (kv : String × β) {l : List (String × β)}
    (h : l.Pairwise pairLe) : (insertKV kv l).Pairwise pairLe := by
  induction l with
  | nil => simp [insertKV, List.pairwise_singleton]
  | cons kv2 rest ih =>
    rw [insertKV]
    rcases List.pairwise_cons.mp h with ⟨h2all, hrest⟩
    by_cases hle : jsLe kv.1 kv2.1
    · rw [if_pos hle]
      refine List.pairwise_cons.mpr ⟨?_, h⟩
      intro y hy
      rcases List.mem_cons.mp hy with rfl | hy'
      · exact hle
      · exact jsLe_trans hle (h2all y hy')
    · rw [if_neg hle]
      refine List.pairwise_cons.mpr ⟨?_, ih hrest⟩
      intro y hy
      have hy2 := (insertKV_perm kv rest).mem_iff.mp hy
      rcases List.mem_cons.mp hy2 with heq | hy'
      · rw [heq]
        rcases jsLe_total kv.1 kv2.1 with hl | hl
        · exact absurd hl hle
        · exact hl
      · exact h2all y hy'

theorem sortByKey_sorted {β : Type} (l : List (String × β)) :
    (sortByKey l).Pairwise pairLe := by
  induction l with
  | nil => simp [sortByKey]
  | cons kv rest ih =>
    rw [sortByKey]
    exact insertKV_sorted kv ih

/-- Two sorted pair lists that are permutations of each other and have
duplicate-free keys are equal. -/
theorem eq_of_perm_of_sorted {β : Type} :
    ∀ {l1 l2 : List (String × β)}, l1.Perm l2 →
    l1.Pairwise pairLe → l2.Pairwise pairLe → (keysOf l1).Nodup → l1 = l2 := by
  intro l1
  induction l1 with
  | nil =>
    intro l2 hp _ _ _
    exact (List.Perm.nil_eq hp).symm ▸ rfl
  | cons x t1 ih =>
    intro l2 hp hs1 hs2 hnd
    cases l2 with
    | nil => exact absurd hp.symm (by simp)
    | cons y t2 =>
      rcases List.pairwise_cons.mp hs1 with ⟨hx, ht1⟩
      rcases List.pairwise_cons.mp hs2 with ⟨hy, ht2⟩
      have hxy : x = y := by
        have hxin : x ∈ y :: t2 := hp.mem_iff.mp (List.mem_cons_self x t1)
        have hyin : y ∈ x :: t1 := hp.symm.mem_iff.mp (List.mem_cons_self y t2)
        have hlexy : pairLe x y := by
          rcases List.mem_cons.mp hyin with rfl | hy'
          · exact jsLe_refl _
          · exact hx y hy'
        have hleyx : pairLe y x := by
          rcases List.mem_cons.mp hxin with rfl | hx'
          · exact jsLe_refl _
          · exact hy x hx'
        have hkeq : x.1 = y.1 := jsLe_antisymm hlexy hleyx
        rcases List.mem_cons.mp hyin with rfl | hy'
        · rfl
        · exfalso
          have hnd' : (x.1 :: keysOf t1).Nodup := by
            simpa only [keysOf, List.map_cons] using hnd
          rcases List.nodup_cons.mp hnd' with ⟨hnx, -⟩
          exact hnx (by
            rw [hkeq]
            exact List.mem_map_of_mem Prod.fst hy')
      subst hxy
      have hpt := hp.cons_inv
      have hndt : (keysOf t1).Nodup := by
        have hnd' : (x.1 :: keysOf t1).Nodup := by
          simpa only [keysOf, List.map_cons] using hnd
        exact (List.nodup_cons.mp hnd').2
      rw [ih hpt ht1 ht2 hndt]

/-! ## Association permutation lemmas -/

theorem perm_cons_eraseKeyF {β : Type} :
    ∀ {l : List (String × β)} {k : String} {v : β},
    lookupF l k = some v → l.Perm ((k, v) :: eraseKeyF l k) := by
  intro l
  induction l with
  | nil => intro k v h; simp [lookupF] at h
  | cons kv rest ih =>
    intro k v h
    obtain ⟨k0, v0⟩ := kv
    rw [lookupF_cons] at h
    by_cases he : k0 = k
    · rw [if_pos he] at h
      injection h with h
      rw [eraseKeyF, if_pos he, he, h]
    · rw [if_neg he] at h
      rw [eraseKeyF, if_neg he]
      exact ((ih h).cons (k0, v0)).trans (List.Perm.swap (k, v) (k0, v0) _)

theorem eraseKeyF_length {β : Type} :
    ∀ {l : List (String × β)} {k : String} {v : β},
    lookupF l k = some v → (eraseKeyF l k).length + 1 = l.length := by
  intro l
  induction l with
  | nil => intro k v h; simp [lookupF] at h
  | cons kv rest ih =>
    intro k v h
    obtain ⟨k0, v0⟩ := kv
    rw [lookupF_cons] at h
    by_cases he : k0 = k
    · rw [eraseKeyF, if_pos he]
      simp
    · rw [if_neg he] at h
      rw [eraseKeyF, if_neg he]
      simp only [List.length_cons]
      rw [← ih h]

theorem lookupF_eraseKeyF_ne {β : Type} :
    ∀ (l : List (String × β)) {k k' : String}, k' ≠ k →
    lookupF (eraseKeyF l k) k' = lookupF l k' := by
  intro l
  induction l with
  | nil => intro k k' _; rfl
  | cons kv rest ih =>
    intro k k' hne
    obtain ⟨k0, v0⟩ := kv
    by_cases he : k0 = k
    · rw [eraseKeyF, if_pos he, lookupF_cons, if_neg (fun hh => hne ((he ▸ hh : k = k')).symm)]
    · rw [eraseKeyF, if_neg he, lookupF_cons, lookupF_cons]
      by_cases he' : k0 = k'
      · rw [if_pos he', if_pos he']
      · rw [if_neg he', if_neg he']
        exact ih hne

/-- Two association lists of equal length, the first with duplicate-free
keys, such that every entry of the first is found (by key, with the same
value) in the second, are permutations of each other. -/
theorem assoc_perm {β : Type} :
    ∀ (fa fb : List (String × β)), (keysOf fa).Nodup → fa.length = fb.length →
    (∀ kv ∈ fa, lookupF fb kv.1 = some kv.2) → fa.Perm fb := by
  intro fa
  induction fa with
  | nil =>
    intro fb _ hlen _
    cases fb with
    | nil => exact List.Perm.refl _
    | cons b bt => simp at hlen
  | cons kv t ih =>
    intro fb hnd hlen hcond
    obtain ⟨k, v⟩ := kv
    have hk : lookupF fb k = some v := hcond (k, v) (List.mem_cons_self _ _)
    have hperm := perm_cons_eraseKeyF hk
    have hnd' : (k :: keysOf t).Nodup := by
      simpa only [keysOf, List.map_cons] using hnd
    rcases List.nodup_cons.mp hnd' with ⟨hkt, hndt⟩
    refine List.Perm.trans ?_ hperm.symm
    refine List.Perm.cons _ (ih (eraseKeyF fb k) hndt ?_ ?_)
    · have := eraseKeyF_length hk
      simp only [List.length_cons] at hlen
      omega
    · intro kv' hkv'
      have hne : kv'.1 ≠ k := by
        intro he
        exact hkt (he ▸ List.mem_map_of_mem Prod.fst hkv')
      rw [lookupF_eraseKeyF_ne fb hne]
      exact hcond kv' (List.mem_cons_of_mem _ hkv')

/-! ## Bridges between rendered fields and raw fields -/

theorem fastFields_eq_map :
    ∀ l : List (String × Value),
    fastFields l = l.map (fun kv => (kv.1, fastObjectHash kv.2)) := by
  intro l
  induction l with
  | nil => rfl
  | cons kv rest ih =>
    obtain ⟨k, v⟩ := kv
    rw [fastFields, ih]
    rfl

theorem fastList_eq_map :
    ∀ l : List Value, fastList l = l.map fastObjectHash := by
  intro l
  induction l with
  | nil => rfl
  | cons v rest ih => rw [fastList, ih]; rfl

theorem lookupF_map_value {β γ : Type} (f : β → γ) :
    ∀ (l : List (String × β)) (k : String),
    lookupF (l.map (fun kv => (kv.1, f kv.2))) k = (lookupF l k).map f := by
  intro l k
  induction l with
  | nil => rfl
  | cons kv rest ih =>
    obtain ⟨k0, v0⟩ := kv
    simp only [List.map_cons]
    rw [lookupF_cons, lookupF_cons]
    by_cases he : k0 = k
    · rw [if_pos he, if_pos he]
      rfl
    · rw [if_neg he, if_neg he]
      exact ih

theorem keysOf_map_value {β γ : Type} (f : β → γ) (l : List (String × β)) :
    keysOf (l.map (fun kv => (kv.1, f kv.2))) = keysOf l := by
  simp [keysOf, List.map_map]

theorem nodupKeys_iff {β : Type} :
    ∀ l : List (String × β), nodupKeys l = true ↔ (keysOf l).Nodup := by
  intro l
  induction l with
  | nil => simp [nodupKeys, keysOf]
  | cons kv rest ih =>
    obtain ⟨k, v⟩ := kv
    rw [nodupKeys]
    simp only [Bool.and_eq_true, Bool.not_eq_true']
    constructor
    · rintro ⟨h1, h2⟩
      refine List.nodup_cons.mpr ⟨?_, ih.mp h2⟩
      intro hmem
      have : (rest.map Prod.fst).contains k = true := (containsKey_iff rest k).mpr hmem
      rw [this] at h1
      exact Bool.true_eq_false.mp h1
    · intro h
      rcases List.nodup_cons.mp (by simpa only [keysOf, List.map_cons] using h) with ⟨h1, h2⟩
      refine ⟨?_, ih.mpr h2⟩
      rw [Bool.eq_false_iff]
      intro hc
      exact h1 ((containsKey_iff rest k).mp hc)

theorem isEqualFields_lookup :
    ∀ (fa fb : List (String × Value)), isEqualFields fa fb = true →
    ∀ kv ∈ fa, ∃ vb, lookupF fb kv.1 = some vb ∧ isEqual kv.2 vb = true := by
  intro fa fb h
  induction fa with
  | nil => intro kv hkv; simp at hkv
  | cons kv0 rest ih =>
    obtain ⟨k, va⟩ := kv0
    rw [isEqualFields] at h
    rw [Bool.and_eq_true] at h
    rcases h with ⟨h1, h2⟩
    intro kv hkv
    rcases List.mem_cons.mp hkv with heq | hmem
    · cases hlk : lookupF fb k with
      | none => rw [hlk] at h1; simp at h1
      | some vb =>
        rw [hlk] at h1
        exact heq ▸ ⟨vb, hlk, h1⟩
    · exact ih h2 kv hmem

/-! ## Structural equality implies equal canonical strings -/

theorem wfVFields_mem :
    ∀ (l : List (String × Value)), wfVFields l = true →
    ∀ kv ∈ l, wfV kv.2 = true := by
  intro l
  induction l with
  | nil => intro _ kv hkv; simp at hkv
  | cons kv0 rest ih =>
    intro hwf kv hkv
    obtain ⟨k0, v0⟩ := kv0
    rw [wfVFields, Bool.and_eq_true] at hwf
    rcases List.mem_cons.mp hkv with heq | hmem
    · rw [heq]
      exact hwf.1
    · exact ih hwf.2 kv hmem

/-- The central Canonical Hasher fact: a well-formed value and any value
structurally equal to it (`isEqual`, which ignores field-declaration order)
render to the same canonical string. -/
theorem isEqual_fastObjectHash :
    ∀ a, wfV a = true → ∀ b, isEqual a b = true → fastObjectHash a = fastObjectHash b := by
  intro a
  induction a using value_induction with
  | hp p =>
    intro _ b hb
    cases b with
    | prim q =>
      rw [isEqual] at hb
      rw [beq_iff_eq] at hb
      rw [hb]
    | arr items => exact Bool.noConfusion (show (false : Bool) = true from hb)
    | obj fields => exact Bool.noConfusion (show (false : Bool) = true from hb)
  | ha items ih =>
    intro hwf b hb
    cases b with
    | prim q => exact Bool.noConfusion (show (false : Bool) = true from hb)
    | obj fields => exact Bool.noConfusion (show (false : Bool) = true from hb)
    | arr bs =>
      rw [isEqual, Bool.and_eq_true] at hb
      rcases hb with ⟨hlen, heqs⟩
      rw [beq_iff_eq] at hlen
      rw [fastObjectHash, fastObjectHash]
      rw [wfV] at hwf
      have : fastList items = fastList bs := by
        induction items generalizing bs with
        | nil =>
          cases bs with
          | nil => rfl
          | cons b bt => simp at hlen
        | cons v vt ihl =>
          cases bs with
          | nil => simp at hlen
          | cons b bt =>
            rw [isEqualList, Bool.and_eq_true] at heqs
            rcases heqs with ⟨h1, h2⟩
            rw [wfVList, Bool.and_eq_true] at hwf
            rcases hwf with ⟨hw1, hw2⟩
            rw [fastList, fastList]
            rw [ih v (List.mem_cons_self _ _) hw1 b h1]
            rw [ihl (fun w hw => ih w (List.mem_cons_of_mem _ hw)) hw2 bt (by simpa using hlen) h2]
      rw [this]
  | ho fields ih =>
    intro hwf b hb
    cases b with
    | prim q => exact Bool.noConfusion (show (false : Bool) = true from hb)
    | arr items => exact Bool.noConfusion (show (false : Bool) = true from hb)
    | obj fb =>
      rw [isEqual, Bool.and_eq_true] at hb
      rcases hb with ⟨hlen, heqf⟩
      rw [beq_iff_eq] at hlen
      rw [wfV, Bool.and_eq_true] at hwf
      rcases hwf with ⟨hndk, hwff⟩
      have hnd : (keysOf fields).Nodup := (nodupKeys_iff fields).mp hndk
      have hcond : ∀ kv ∈ fastFields fields,
          lookupF (fastFields fb) kv.1 = some kv.2 := by
        intro kv hkv
        rw [fastFields_eq_map] at hkv
        rcases List.mem_map.mp hkv with ⟨⟨k, va⟩, hmem, hkveq⟩
        subst hkveq
        dsimp only
        rcases isEqualFields_lookup fields fb heqf (k, va) hmem with ⟨vb, hlk, heqv⟩
        have hhash : fastObjectHash va = fastObjectHash vb :=
          ih (k, va) hmem (wfVFields_mem fields hwff (k, va) hmem) vb heqv
        rw [fastFields_eq_map, lookupF_map_value]
        dsimp only at hlk
        rw [hlk]
        rw [hhash]
        rfl
      have hperm : (fastFields fields).Perm (fastFields fb) := by
        refine assoc_perm _ _ ?_ ?_ hcond
        · rw [fastFields_eq_map, keysOf_map_value]
          exact hnd
        · rw [fastFields_eq_map, fastFields_eq_map]
          simp only [List.length_map]
          exact hlen
      have hndfa : (keysOf (sortByKey (fastFields fields))).Nodup := by
        have hpk : (keysOf (sortByKey (fastFields fields))).Perm (keysOf (fastFields fields)) :=
          (sortByKey_perm (fastFields fields)).map Prod.fst
        refine hpk.symm.nodup ?_
        rw [fastFields_eq_map, keysOf_map_value]
        exact hnd
      have hsorteq : sortByKey (fastFields fields) = sortByKey (fastFields fb) := by
        refine eq_of_perm_of_sorted ?_ (sortByKey_sorted _) (sortByKey_sorted _) hndfa
        exact (sortByKey_perm _).trans (hperm.trans (sortByKey_perm _).symm)
      rw [fastObjectHash, fastObjectHash, hsorteq]

/-- Structural equality implies equal fingerprints (`Shoy.hash`). -/
theorem isEqual_hashV : ∀ {a b : Value}, wfV a = true → isEqual a b = true →
    hashV a = hashV b := by
  intro a b hw he
  have hfast := isEqual_fastObjectHash a hw b he
  cases a with
  | prim p =>
    cases b with
    | prim q =>
      rw [isEqual] at he
      rw [beq_iff_eq] at he
      rw [he]
    | arr bs => exact Bool.noConfusion (show (false : Bool) = true from he)
    | obj fb => exact Bool.noConfusion (show (false : Bool) = true from he)
  | arr as =>
    cases b with
    | prim q => exact Bool.noConfusion (show (false : Bool) = true from he)
    | arr bs =>
      simp [hashV, isPrimitive, hfast]
    | obj fb => exact Bool.noConfusion (show (false : Bool) = true from he)
  | obj fa =>
    cases b with
    | prim q => exact Bool.noConfusion (show (false : Bool) = true from he)
    | arr bs => exact Bool.noConfusion (show (false : Bool) = true from he)
    | obj fb =>
      simp [hashV, isPrimitive, hfast]

/-- C2: two keyed-record values with the same set of keys and pairwise
structurally equal values at each key — which is exactly what the structural
equality checker `isEqual` tests on records — receive identical fingerprint
strings from `Shoy.hash`, whatever their field-declaration order.  The
well-formedness hypothesis is JS's guarantee that object keys are unique. -/
theorem C2_fingerprint_order_independence (fa fb : List (String × Value))
    (hwf : wfV (Value.obj fa) = true)
    (heq : isEqual (Value.obj fa) (Value.obj fb) = true) :
    hashV (Value.obj fa) = hashV (Value.obj fb) :=
  isEqual_hashV hwf heq

/-- Witness for C2: `{a: 1, b: {x: 1, y: 2}}` versus `{b: {y: 2, x: 1}, a: 1}`
(reordered at both nesting levels). -/
theorem C2_fingerprint_order_independence_witness :
    wfV (Value.obj [("a", .prim (.num 1)),
      ("b", .obj [("x", .prim (.num 1)), ("y", .prim (.num 2))])]) = true ∧
    isEqual
      (Value.obj [("a", .prim (.num 1)),
        ("b", .obj [("x", .prim (.num 1)), ("y", .prim (.num 2))])])
      (Value.obj [("b", .obj [("y", .prim (.num 2)), ("x", .prim (.num 1))]),
        ("a", .prim (.num 1))]) = true ∧
    hashV (Value.obj [("a", .prim (.num 1)),
        ("b", .obj [("x", .prim (.num 1)), ("y", .prim (.num 2))])])
      = hashV (Value.obj [("b", .obj [("y", .prim (.num 2)), ("x", .prim (.num 1))]),
        ("a", .prim (.num 1))]) :=
  ⟨by decide, by decide,
   C2_fingerprint_order_independence _ _ (by decide) (by decide)⟩

/-! ## Patch resolver (deepMerge) semantics: claim C7 -/

theorem mergeFields_lookup_not_mem :
    ∀ (patchF : List (String × Value)) (prevF acc : List (String × Value)) (k : String),
    k ∉ keysOf patchF →
    lookupF (mergeFields prevF acc patchF) k = lookupF acc k := by
  intro patchF
  induction patchF with
  | nil => intro prevF acc k _; rfl
  | cons kv rest ih =>
    intro prevF acc k hk
    obtain ⟨k0, qv⟩ := kv
    have hne : k ≠ k0 := by
      intro he
      exact hk (by simp [keysOf, he])
    have hk' : k ∉ keysOf rest := by
      intro hmem
      exact hk (by simp [keysOf] at hmem ⊢; exact Or.inr hmem)
    rw [mergeFields]
    rw [ih prevF _ k hk']
    exact lookupF_setF_ne acc _ hne

theorem mergeFields_lookup_mem :
    ∀ (patchF : List (String × Value)) (prevF acc : List (String × Value))
      (k : String) (qv : Value),
    nodupKeys patchF = true →
    lookupF patchF k = some qv →
    lookupF (mergeFields prevF acc patchF) k = some
      (match lookupF prevF k with
       | some pv => if isRecordV pv && isRecordV qv then deepMerge pv qv else qv
       | none => qv) := by
  intro patchF
  induction patchF with
  | nil => intro prevF acc k qv _ hlk; simp [lookupF] at hlk
  | cons kv rest ih =>
    intro prevF acc k qv hnd hlk
    obtain ⟨k0, qv0⟩ := kv
    rw [nodupKeys, Bool.and_eq_true, Bool.not_eq_true'] at hnd
    rcases hnd with ⟨hnc, hndr⟩
    rw [lookupF_cons] at hlk
    by_cases he : k0 = k
    · rw [if_pos he] at hlk
      injection hlk with hlk
      subst he
      subst hlk
      rw [mergeFields]
      have hk0 : k0 ∉ keysOf rest := by
        intro hmem
        have := (containsKey_iff rest k0).mpr hmem
        rw [this] at hnc
        exact Bool.noConfusion hnc
      rw [mergeFields_lookup_not_mem rest prevF _ k0 hk0]
      exact lookupF_setF_self acc k0 _
    · rw [if_neg he] at hlk
      rw [mergeFields]
      exact ih prevF _ k qv hndr hlk

/-- C7: the patch resolver.  For plain keyed records on both sides, the
resolved candidate maps every key of the patch to the patch's value, except
that when both the previous and the patch value at the key are records the
merge recurses; keys only in `prev` keep their previous values.  If the
previous value is primitive or either side is an array or a primitive, the
candidate is the patch wholesale.  The key-uniqueness hypothesis is JS's
guarantee on object keys. -/
theorem C7_deep_merge_semantics (pf qf : List (String × Value))
    (hnd : nodupKeys qf = true) :
    deepMerge (Value.obj pf) (Value.obj qf) = Value.obj (mergeFields pf pf qf) ∧
    (∀ (k : String) (qv : Value), lookupF qf k = some qv →
      lookupF (mergeFields pf pf qf) k = some
        (match lookupF pf k with
         | some pv => if isRecordV pv && isRecordV qv then deepMerge pv qv else qv
         | none => qv)) ∧
    (∀ k : String, k ∉ keysOf qf →
      lookupF (mergeFields pf pf qf) k = lookupF pf k) ∧
    (∀ prev patch : Value,
      (isPrimitive prev || isPrimitive patch
        || isArrayV prev || isArrayV patch) = true →
      deepMerge prev patch = patch) := by
  refine ⟨rfl, ?_, ?_, ?_⟩
  · intro k qv hlk
    exact mergeFields_lookup_mem qf pf pf k qv hnd hlk
  · intro k hk
    exact mergeFields_lookup_not_mem qf pf pf k hk
  · intro prev patch hcase
    cases prev <;> cases patch <;> first
      | rfl
      | (exact Bool.noConfusion (show (false : Bool) = true from hcase))

/-- Witness for C7: `prev = {a: 1, u: {x: 1}}`, `patch = {u: {y: 2}, b: 3}`:
`u` merges recursively, `b` is added, `a` is preserved. -/
theorem C7_deep_merge_semantics_witness :
    nodupKeys [("u", Value.obj [("y", Value.prim (.num 2))]),
      ("b", Value.prim (.num 3))] = true ∧
    lookupF (mergeFields
        [("a", Value.prim (.num 1)), ("u", Value.obj [("x", Value.prim (.num 1))])]
        [("a", Value.prim (.num 1)), ("u", Value.obj [("x", Value.prim (.num 1))])]
        [("u", Value.obj [("y", Value.prim (.num 2))]), ("b", Value.prim (.num 3))])
      "u" = some (Value.obj [("x", Value.prim (.num 1)), ("y", Value.prim (.num 2))]) ∧
    lookupF (mergeFields
        [("a", Value.prim (.num 1)), ("u", Value.obj [("x", Value.prim (.num 1))])]
        [("a", Value.prim (.num 1)), ("u", Value.obj [("x", Value.prim (.num 1))])]
        [("u", Value.obj [("y", Value.prim (.num 2))]), ("b", Value.prim (.num 3))])
      "a" = lookupF
        [("a", Value.prim (.num 1)), ("u", Value.obj [("x", Value.prim (.num 1))])] "a" :=
  ⟨by decide,
   (C7_deep_merge_semantics
     [("a", Value.prim (.num 1)), ("u", Value.obj [("x", Value.prim (.num 1))])]
     [("u", Value.obj [("y", Value.prim (.num 2))]), ("b", Value.prim (.num 3))]
     (by decide)).2.1 "u" (Value.obj [("y", Value.prim (.num 2))]) rfl,
   (C7_deep_merge_semantics
     [("a", Value.prim (.num 1)), ("u", Value.obj [("x", Value.prim (.num 1))])]
     [("u", Value.obj [("y", Value.prim (.num 2))]), ("b", Value.prim (.num 3))]
     (by decide)).2.2.1 "a" (by decide)⟩

/-! ## Positional lemmas for the history navigator -/

theorem lookupF_of_mem_nodup {β : Type} :
    ∀ {l : List (String × β)}, (keysOf l).Nodup →
    ∀ {k : String} {v : β}, (k, v) ∈ l → lookupF l k = some v := by
  intro l
  induction l with
  | nil => intro _ k v hmem; simp at hmem
  | cons kv rest ih =>
    intro hnd k v hmem
    obtain ⟨k0, v0⟩ := kv
    have hnd' : (k0 :: keysOf rest).Nodup := by
      simpa only [keysOf, List.map_cons] using hnd
    rcases List.nodup_cons.mp hnd' with ⟨hk0, hndr⟩
    rw [lookupF_cons]
    rcases List.mem_cons.mp hmem with heq | hmem'
    · injection heq with he1 he2
      rw [if_pos he1.symm, he2]
    · by_cases he : k0 = k
      · exfalso
        exact hk0 (he ▸ List.mem_map_of_mem Prod.fst hmem')
      · rw [if_neg he]
        exact ih hndr hmem'

theorem current_of_mem {s : Shoy} (hnd : (keysOf s.versions).Nodup)
    {h : Hash} {v : Value} (hmem : (h, v) ∈ s.versions) (hroot : s.rootHash = h) :
    s.current = some v := by
  rw [Shoy.current, hroot]
  exact lookupF_of_mem_nodup hnd hmem

theorem findIdx?_beq_none_of_not_mem {K : List Hash} {k : Hash} (h : k ∉ K) :
    K.findIdx? (fun x => x == k) = none := by
  rw [List.findIdx?_eq_none_iff]
  intro x hx
  rw [beq_eq_false_iff_ne]
  intro he
  exact h (he ▸ hx)

/-- `undo` from an interior position: the root has an immediate predecessor
in the key order and moves to it. -/
theorem undo_shape {s : Shoy} (hmh : 0 < s.maxHistory)
    (hnd : (keysOf s.versions).Nodup)
    {K : List Hash} {a b : Hash} {Y : List Hash}
    (hkeys : keysOf s.versions = K ++ a :: b :: Y)
    (hroot : s.rootHash = b) :
    s.undo = (true, { s with rootHash := a },
      s.listeners.map (fun i => (i, a))) := by
  have hhist : s.history = K ++ a :: b :: Y := by
    rw [Shoy.history, if_pos hmh]
    exact hkeys
  have hndk : (K ++ a :: b :: Y).Nodup := hkeys ▸ hnd
  have hkbX : b ∉ K := by
    intro hmem
    rcases List.nodup_append.mp hndk with ⟨-, -, hdisj⟩
    exact hdisj hmem (by simp)
  have hkab : a ≠ b := by
    rcases List.nodup_append.mp hndk with ⟨-, hnd2, -⟩
    rcases List.nodup_cons.mp hnd2 with ⟨hka, -⟩
    intro he
    exact hka (by simp [he])
  have hfi : (K ++ a :: b :: Y).findIdx? (fun x => x == b)
      = some (K.length + 1) := by
    rw [List.findIdx?_append, findIdx?_beq_none_of_not_mem hkbX]
    simp [List.findIdx?_cons, beq_eq_false_iff_ne.mpr hkab, List.findIdx?_succ,
      Nat.add_comm]
  rw [Shoy.undo, if_neg (by omega)]
  simp only [hhist, hroot, hfi]
  rw [if_neg (by omega)]
  have htn : ((((K.length + 1 : Nat)) : Int) - 1).toNat = K.length := by omega
  rw [htn]
  have hgd : (K ++ a :: b :: Y).getD K.length "" = a := by
    rw [List.getD_eq_getElem?_getD, List.getElem?_append_right (Nat.le_refl _)]
    simp
  rw [hgd]
  rfl

/-- `redo` from a position with an immediate successor: the root moves to
it. -/
theorem redo_shape {s : Shoy} (hmh : 0 < s.maxHistory)
    (hnd : (keysOf s.versions).Nodup)
    {K : List Hash} {a b : Hash} {Y : List Hash}
    (hkeys : keysOf s.versions = K ++ a :: b :: Y)
    (hroot : s.rootHash = a) :
    s.redo = (true, { s with rootHash := b },
      s.listeners.map (fun i => (i, b))) := by
  have hhist : s.history = K ++ a :: b :: Y := by
    rw [Shoy.history, if_pos hmh]
    exact hkeys
  have hndk : (K ++ a :: b :: Y).Nodup := hkeys ▸ hnd
  have hkaX : a ∉ K := by
    intro hmem
    rcases List.nodup_append.mp hndk with ⟨-, -, hdisj⟩
    exact hdisj hmem (by simp)
  have hfi : (K ++ a :: b :: Y).findIdx? (fun x => x == a)
      = some K.length := by
    rw [List.findIdx?_append, findIdx?_beq_none_of_not_mem hkaX]
    simp [List.findIdx?_cons]
  rw [Shoy.redo, if_neg (by omega)]
  simp only [hhist, hroot, hfi]
  rw [if_neg (by
    simp only [List.length_append, List.length_cons]
    omega)]
  have htn : ((((K.length : Nat)) : Int) + 1).toNat = K.length + 1 := by omega
  rw [htn]
  have hgd : (K ++ a :: b :: Y).getD (K.length + 1) "" = b := by
    rw [List.getD_eq_getElem?_getD,
      List.getElem?_append_right (Nat.le_succ_of_le (Nat.le_refl _))]
    simp
  rw [hgd]
  rfl

/-- `redo` at the last position fails. -/
theorem redo_at_last {s : Shoy} (hmh : 0 < s.maxHistory)
    (hnd : (keysOf s.versions).Nodup)
    {K : List Hash} {k : Hash}
    (hkeys : keysOf s.versions = K ++ [k])
    (hroot : s.rootHash = k) :
    s.redo = (false, s, []) := by
  have hhist : s.history = K ++ [k] := by
    rw [Shoy.history, if_pos hmh]
    exact hkeys
  have hndk : (K ++ [k]).Nodup := hkeys ▸ hnd
  have hkX : k ∉ K := by
    intro hmem
    rcases List.nodup_append.mp hndk with ⟨-, -, hdisj⟩
    exact hdisj hmem (by simp)
  have hfi : (K ++ [k]).findIdx? (fun x => x == k) = some K.length := by
    rw [List.findIdx?_append, findIdx?_beq_none_of_not_mem hkX]
    simp [List.findIdx?_cons]
  rw [Shoy.redo, if_neg (by omega)]
  simp only [hhist, hroot, hfi]
  rw [if_pos (by
    simp only [List.length_append, List.length_cons, List.length_nil]
    omega)]

/-! ## The effect of a fresh-fingerprint apply -/

/-- An `apply` whose resolved candidate has a fingerprint not yet in the
Version Log (history enabled) commits: the entry is appended at the end of
insertion order, the oldest entries beyond the bound are dropped, and the
Root Pointer moves to the new fingerprint. -/
theorem runOp_apply_fresh {s : Shoy} (hInv : s.Inv) (hmh : 0 < s.maxHistory)
    {prev : Value} (v : Value)
    (hprev : s.current = some prev)
    (hfresh : hashV (resolveCandidate prev v) ∉ keysOf s.versions) :
    s.runOp (.apply (.val v)) =
      { s with
        versions := (s.versions ++ [(hashV (resolveCandidate prev v),
            resolveCandidate prev v)]).drop
          ((s.versions.length + 1) - (s.maxHistory + 1)),
        rootHash := hashV (resolveCandidate prev v) } := by
  obtain ⟨hnd, hroot, hcons, -⟩ := hInv
  have hrootne : hashV (resolveCandidate prev v) ≠ s.rootHash := by
    intro he
    exact hfresh (he ▸ (by simpa [keysOf] using hroot))
  by_cases h1 : isPrimitive prev && isPrimitive v
  · have hcand : resolveCandidate prev v = v := by
      rw [resolveCandidate, if_pos h1]
    rw [hcand] at hrootne hfresh ⊢
    have hobj : objectIs prev v = false := by
      have h1' := h1
      rw [Bool.and_eq_true] at h1'
      rcases h1' with ⟨hp1, hp2⟩
      cases prev with
      | arr items => exact Bool.noConfusion hp1
      | obj fields => exact Bool.noConfusion hp1
      | prim pp =>
        cases v with
        | arr items => exact Bool.noConfusion hp2
        | obj fields => exact Bool.noConfusion hp2
        | prim qq =>
          rw [objectIs]
          rw [beq_eq_false_iff_ne]
          intro he
          apply hrootne
          rw [← he]
          exact hcons _ (lookupF_mem hprev)
    simp only [Shoy.runOp, Shoy.apply, hprev]
    rw [if_pos h1, hobj]
    simp only [Bool.false_eq_true, if_false]
    rw [commit_fresh_pos v hmh (by simpa [keysOf] using hnd)
      (by simpa [keysOf] using hfresh)]
  · have hcand : resolveCandidate prev v = deepMerge prev v := by
      rw [resolveCandidate, if_neg h1]
    rw [hcand] at hrootne hfresh ⊢
    simp only [Shoy.runOp, Shoy.apply, hprev]
    rw [if_neg h1]
    rw [show (hashV (deepMerge prev v) == s.rootHash) = false from
      beq_eq_false_iff_ne.mpr hrootne]
    simp only [Bool.false_eq_true, if_false]
    rw [commit_fresh_pos (deepMerge prev v) hmh (by simpa [keysOf] using hnd)
      (by simpa [keysOf] using hfresh)]

theorem runOp_apply_fresh_suffix {s : Shoy} (hInv : s.Inv) (hmh : 0 < s.maxHistory)
    {prev : Value} (v : Value)
    (hprev : s.current = some prev)
    (hfresh : hashV (resolveCandidate prev v) ∉ keysOf s.versions)
    {X T : List (Hash × Value)} (hsplit : s.versions = X ++ T)
    (hT : T.length < s.maxHistory + 1) :
    ∃ X', (s.runOp (.apply (.val v))).versions =
      X' ++ (T ++ [(hashV (resolveCandidate prev v), resolveCandidate prev v)]) := by
  rw [runOp_apply_fresh hInv hmh v hprev hfresh, hsplit]
  have hj : (X ++ T).length + 1 - (s.maxHistory + 1) ≤ X.length := by
    rw [List.length_append]
    omega
  refine ⟨X.drop ((X ++ T).length + 1 - (s.maxHistory + 1)), ?_⟩
  rw [List.append_assoc, List.drop_append_of_le_length hj]

theorem runOp_apply_fresh_keys {s : Shoy} (hInv : s.Inv) (hmh : 0 < s.maxHistory)
    {prev : Value} (v : Value)
    (hprev : s.current = some prev)
    (hfresh : hashV (resolveCandidate prev v) ∉ keysOf s.versions) :
    ∀ k, k ∈ keysOf (s.runOp (.apply (.val v))).versions →
      k ∈ keysOf s.versions ∨ k = hashV (resolveCandidate prev v) := by
  rw [runOp_apply_fresh hInv hmh v hprev hfresh]
  intro k hk
  replace hk : k ∈ keysOf ((s.versions ++ [(hashV (resolveCandidate prev v),
      resolveCandidate prev v)]).drop ((s.versions.length + 1) - (s.maxHistory + 1))) := hk
  rw [keysOf_drop, keysOf_append] at hk
  have hmem := List.mem_of_mem_drop hk
  rcases List.mem_append.mp hmem with h1 | h2
  · exact Or.inl h1
  · right
    simpa [keysOf] using h2

/-- C8 (amended): the undo/redo round trip.  Requires `maxHistory ≥ 2` (so
the three commits survive retention), patches that resolve to the applied
values wholesale, and fingerprints that are fresh and pairwise distinct —
the code navigates by fingerprint, so a fingerprint collision re-uses an
existing log position instead of appending. -/
theorem C8_undo_redo_roundtrip_amended (s : Shoy) (hInv : s.Inv)
    (hmh : 2 ≤ s.maxHistory)
    (v1 v2 v3 prev0 : Value)
    (hprev : s.current = some prev0)
    (hc1 : resolveCandidate prev0 v1 = v1)
    (hc2 : resolveCandidate v1 v2 = v2)
    (hc3 : resolveCandidate v2 v3 = v3)
    (hf1 : hashV v1 ∉ keysOf s.versions)
    (hf2 : hashV v2 ∉ keysOf s.versions)
    (hf3 : hashV v3 ∉ keysOf s.versions)
    (hd12 : hashV v1 ≠ hashV v2) (hd13 : hashV v1 ≠ hashV v3)
    (hd23 : hashV v2 ≠ hashV v3) :
    (s.runOps [.apply (.val v1), .apply (.val v2), .apply (.val v3),
      .undo, .undo]).current = some v1 ∧
    (s.runOps [.apply (.val v1), .apply (.val v2), .apply (.val v3),
      .undo, .undo, .redo, .redo]).current = some v3 := by
  have hmh1 : 0 < s.maxHistory := by omega
  -- step 1: apply v1
  obtain ⟨hInv1, hmhe1, -⟩ := runOp_inv hInv (.apply (.val v1))
  obtain ⟨X1, hX1⟩ := runOp_apply_fresh_suffix hInv hmh1 v1 hprev
    (by rw [hc1]; exact hf1) (X := s.versions) (T := [])
    (by simp) (by simp only [List.length_nil]; omega)
  rw [hc1] at hX1
  simp only [List.nil_append] at hX1
  have hroot1 : (s.runOp (.apply (.val v1))).rootHash = hashV v1 := by
    rw [runOp_apply_fresh hInv hmh1 v1 hprev (by rw [hc1]; exact hf1), hc1]
  have hkeys1 := runOp_apply_fresh_keys hInv hmh1 v1 hprev (by rw [hc1]; exact hf1)
  rw [hc1] at hkeys1
  have hnd1 : (keysOf (s.runOp (.apply (.val v1))).versions).Nodup := by
    obtain ⟨hnd1', -, -, -⟩ := hInv1
    simpa [keysOf] using hnd1'
  have hcur1 : (s.runOp (.apply (.val v1))).current = some v1 :=
    current_of_mem hnd1 (by rw [hX1]; simp) hroot1
  have hf2' : hashV v2 ∉ keysOf (s.runOp (.apply (.val v1))).versions := by
    intro hmem
    rcases hkeys1 _ hmem with h | h
    · exact hf2 h
    · exact hd12 h.symm
  have hf3' : hashV v3 ∉ keysOf (s.runOp (.apply (.val v1))).versions := by
    intro hmem
    rcases hkeys1 _ hmem with h | h
    · exact hf3 h
    · exact hd13 h.symm
  -- step 2: apply v2
  obtain ⟨hInv2, hmhe2, -⟩ := runOp_inv hInv1 (.apply (.val v2))
  have hmh2 : 0 < (s.runOp (.apply (.val v1))).maxHistory := by omega
  obtain ⟨X2, hX2⟩ := runOp_apply_fresh_suffix hInv1 hmh2 v2 hcur1
    (by rw [hc2]; exact hf2') (X := X1) (T := [(hashV v1, v1)]) hX1
    (by simp only [List.length_cons, List.length_nil]; omega)
  rw [hc2] at hX2
  have hroot2 : ((s.runOp (.apply (.val v1))).runOp (.apply (.val v2))).rootHash
      = hashV v2 := by
    rw [runOp_apply_fresh hInv1 hmh2 v2 hcur1 (by rw [hc2]; exact hf2'), hc2]
  have hkeys2 := runOp_apply_fresh_keys hInv1 hmh2 v2 hcur1 (by rw [hc2]; exact hf2')
  rw [hc2] at hkeys2
  have hnd2 : (keysOf ((s.runOp (.apply (.val v1))).runOp (.apply (.val v2))).versions).Nodup := by
    obtain ⟨hnd2', -, -, -⟩ := hInv2
    simpa [keysOf] using hnd2'
  have hcur2 : ((s.runOp (.apply (.val v1))).runOp (.apply (.val v2))).current
      = some v2 := current_of_mem hnd2 (by rw [hX2]; simp) hroot2
  have hf3'' : hashV v3
      ∉ keysOf ((s.runOp (.apply (.val v1))).runOp (.apply (.val v2))).versions := by
    intro hmem
    rcases hkeys2 _ hmem with h | h
    · exact hf3' h
    · exact hd23 h.symm
  -- step 3: apply v3
  obtain ⟨hInv3, hmhe3, -⟩ := runOp_inv hInv2 (.apply (.val v3))
  have hmh3 : 0 < ((s.runOp (.apply (.val v1))).runOp (.apply (.val v2))).maxHistory := by
    omega
  obtain ⟨X3, hX3⟩ := runOp_apply_fresh_suffix hInv2 hmh3 v3 hcur2
    (by rw [hc3]; exact hf3'') (X := X2) (T := [(hashV v1, v1), (hashV v2, v2)]) hX2
    (by simp only [List.length_cons, List.length_nil]; omega)
  rw [hc3] at hX3
  have hroot3 : (((s.runOp (.apply (.val v1))).runOp (.apply (.val v2))).runOp
      (.apply (.val v3))).rootHash = hashV v3 := by
    rw [runOp_apply_fresh hInv2 hmh3 v3 hcur2 (by rw [hc3]; exact hf3''), hc3]
  have hnd3 : (keysOf (((s.runOp (.apply (.val v1))).runOp (.apply (.val v2))).runOp
      (.apply (.val v3))).versions).Nodup := by
    obtain ⟨hnd3', -, -, -⟩ := hInv3
    simpa [keysOf] using hnd3'
  have hmh3' : 0 < (((s.runOp (.apply (.val v1))).runOp (.apply (.val v2))).runOp
      (.apply (.val v3))).maxHistory := by omega
  have hK3 : keysOf (((s.runOp (.apply (.val v1))).runOp (.apply (.val v2))).runOp
      (.apply (.val v3))).versions
      = keysOf X3 ++ [hashV v1, hashV v2, hashV v3] := by
    rw [hX3, keysOf_append]
    simp [keysOf]
  set s3 := ((s.runOp (.apply (.val v1))).runOp (.apply (.val v2))).runOp
    (.apply (.val v3)) with hs3def
  -- the two undos
  have hrun4 : s3.runOp .undo = { s3 with rootHash := hashV v2 } := by
    have hstep : s3.runOp .undo = (s3.undo).2.1 := rfl
    rw [hstep, undo_shape (s := s3) hmh3' hnd3
      (K := keysOf X3 ++ [hashV v1]) (a := hashV v2) (b := hashV v3) (Y := [])
      (by rw [hK3]; simp) hroot3]
  have hrun5 : ({ s3 with rootHash := hashV v2 } : Shoy).runOp .undo
      = { s3 with rootHash := hashV v1 } := by
    have hstep : ({ s3 with rootHash := hashV v2 } : Shoy).runOp .undo
        = (({ s3 with rootHash := hashV v2 } : Shoy).undo).2.1 := rfl
    rw [hstep, undo_shape (s := { s3 with rootHash := hashV v2 }) hmh3' hnd3
      (K := keysOf X3) (a := hashV v1) (b := hashV v2) (Y := [hashV v3])
      hK3 rfl]
  have hchain5 : s.runOps [.apply (.val v1), .apply (.val v2), .apply (.val v3),
      .undo, .undo] = ((s3.runOp .undo).runOp .undo) := by
    simp only [Shoy.runOps, List.foldl_cons, List.foldl_nil]
  have hcur_undo : ((s3.runOp .undo).runOp .undo).current = some v1 := by
    rw [hrun4, hrun5]
    exact current_of_mem (s := { s3 with rootHash := hashV v1 }) (h := hashV v1)
      (v := v1) hnd3 (by rw [hX3]; simp) rfl
  refine ⟨by rw [hchain5]; exact hcur_undo, ?_⟩
  -- the two redos
  have hrun6 : ({ s3 with rootHash := hashV v1 } : Shoy).runOp .redo
      = { s3 with rootHash := hashV v2 } := by
    have hstep : ({ s3 with rootHash := hashV v1 } : Shoy).runOp .redo
        = (({ s3 with rootHash := hashV v1 } : Shoy).redo).2.1 := rfl
    rw [hstep, redo_shape (s := { s3 with rootHash := hashV v1 }) hmh3' hnd3
      (K := keysOf X3) (a := hashV v1) (b := hashV v2) (Y := [hashV v3])
      hK3 rfl]
  have hrun7 : ({ s3 with rootHash := hashV v2 } : Shoy).runOp .redo
      = { s3 with rootHash := hashV v3 } := by
    have hstep : ({ s3 with rootHash := hashV v2 } : Shoy).runOp .redo
        = (({ s3 with rootHash := hashV v2 } : Shoy).redo).2.1 := rfl
    rw [hstep, redo_shape (s := { s3 with rootHash := hashV v2 }) hmh3' hnd3
      (K := keysOf X3 ++ [hashV v1]) (a := hashV v2) (b := hashV v3) (Y := [])
      (by rw [hK3]; simp) rfl]
  have hchain7 : s.runOps [.apply (.val v1), .apply (.val v2), .apply (.val v3),
      .undo, .undo, .redo, .redo]
      = ((((s3.runOp .undo).runOp .undo).runOp .redo).runOp .redo) := by
    simp only [Shoy.runOps, List.foldl_cons, List.foldl_nil]
  rw [hchain7, hrun4, hrun5, hrun6, hrun7]
  exact current_of_mem (s := { s3 with rootHash := hashV v3 }) (h := hashV v3)
    (v := v3) hnd3 (by rw [hX3]; simp) rfl

/-- Counterexample to C8 as stated: with `maxHistory = 0` (the claim
quantifies over every store), three pairwise structurally distinct applied
values leave `undo()` powerless, and after two undos the current value is
still `v3`, not `v1`. -/
theorem C8_undo_redo_roundtrip_counterexample :
    isEqual (.prim (.num 1)) (.prim (.num 2)) = false ∧
    isEqual (.prim (.num 1)) (.prim (.num 3)) = false ∧
    isEqual (.prim (.num 2)) (.prim (.num 3)) = false ∧
    ((Shoy.construct (.prim (.num 0)) 0).runOps
      [.apply (.val (.prim (.num 1))), .apply (.val (.prim (.num 2))),
       .apply (.val (.prim (.num 3))), .undo, .undo]).current
      = some (.prim (.num 3)) ∧
    isEqual (.prim (.num 3)) (.prim (.num 1)) = false :=
  ⟨by decide, by decide, by decide, rfl, by decide⟩

/-- Witness for the amended C8 at a concrete store (`maxHistory = 2`,
initial value `0`, applying `1, 2, 3`). -/
theorem C8_undo_redo_roundtrip_amended_witness :
    2 ≤ (2 : Nat) ∧
    ((Shoy.construct (.prim (.num 0)) 2).runOps
      [.apply (.val (.prim (.num 1))), .apply (.val (.prim (.num 2))),
       .apply (.val (.prim (.num 3))), .undo, .undo]).current
      = some (.prim (.num 1)) ∧
    ((Shoy.construct (.prim (.num 0)) 2).runOps
      [.apply (.val (.prim (.num 1))), .apply (.val (.prim (.num 2))),
       .apply (.val (.prim (.num 3))), .undo, .undo, .redo, .redo]).current
      = some (.prim (.num 3)) :=
  ⟨by decide,
   (C8_undo_redo_roundtrip_amended (Shoy.construct (.prim (.num 0)) 2)
     (construct_inv _ _) (by decide) (.prim (.num 1)) (.prim (.num 2)) (.prim (.num 3))
     (.prim (.num 0)) rfl rfl rfl rfl (by decide) (by decide) (by decide)
     (by decide) (by decide) (by decide)).1,
   (C8_undo_redo_roundtrip_amended (Shoy.construct (.prim (.num 0)) 2)
     (construct_inv _ _) (by decide) (.prim (.num 1)) (.prim (.num 2)) (.prim (.num 3))
     (.prim (.num 0)) rfl rfl rfl rfl (by decide) (by decide) (by decide)
     (by decide) (by decide) (by decide)).2⟩

/-- C9 (amended): a fresh commit after an undo is appended at the end of
insertion order and moves the Root Pointer there, so `redo` fails, while the
undone-past entry stays in the log and `revert` to it succeeds.  The
freshness/distinctness hypotheses replace the claim's "structurally
distinct": the code navigates by fingerprint, and a fingerprint collision
with an existing entry re-uses that entry's position instead of appending
(see the counterexample). -/
theorem C9_fork_disables_redo_amended (s : Shoy) (hInv : s.Inv)
    (hmh : 1 ≤ s.maxHistory)
    (v1 v2 v3 prev0 : Value)
    (hprev : s.current = some prev0)
    (hc1 : resolveCandidate prev0 v1 = v1)
    (hc2 : resolveCandidate v1 v2 = v2)
    (hc3 : resolveCandidate v1 v3 = v3)
    (hf1 : hashV v1 ∉ keysOf s.versions)
    (hf2 : hashV v2 ∉ keysOf s.versions)
    (hf3 : hashV v3 ∉ keysOf s.versions)
    (hd12 : hashV v1 ≠ hashV v2) (hd13 : hashV v1 ≠ hashV v3)
    (hd23 : hashV v2 ≠ hashV v3) :
    (∃ X, (s.runOps [.apply (.val v1), .apply (.val v2), .undo,
        .apply (.val v3)]).versions = X ++ [(hashV v3, v3)]) ∧
    (s.runOps [.apply (.val v1), .apply (.val v2), .undo,
      .apply (.val v3)]).rootHash = hashV v3 ∧
    ((s.runOps [.apply (.val v1), .apply (.val v2), .undo,
      .apply (.val v3)]).redo).1 = false ∧
    hashV v2 ∈ keysOf (s.runOps [.apply (.val v1), .apply (.val v2), .undo,
      .apply (.val v3)]).versions ∧
    ((s.runOps [.apply (.val v1), .apply (.val v2), .undo,
      .apply (.val v3)]).revert (hashV v2)).1 = true := by
  have hmh1 : 0 < s.maxHistory := by omega
  -- step 1: apply v1
  obtain ⟨hInv1, hmhe1, -⟩ := runOp_inv hInv (.apply (.val v1))
  obtain ⟨X1, hX1⟩ := runOp_apply_fresh_suffix hInv hmh1 v1 hprev
    (by rw [hc1]; exact hf1) (X := s.versions) (T := [])
    (by simp) (by simp only [List.length_nil]; omega)
  rw [hc1] at hX1
  simp only [List.nil_append] at hX1
  have hroot1 : (s.runOp (.apply (.val v1))).rootHash = hashV v1 := by
    rw [runOp_apply_fresh hInv hmh1 v1 hprev (by rw [hc1]; exact hf1), hc1]
  have hkeys1 := runOp_apply_fresh_keys hInv hmh1 v1 hprev (by rw [hc1]; exact hf1)
  rw [hc1] at hkeys1
  have hnd1 : (keysOf (s.runOp (.apply (.val v1))).versions).Nodup := by
    obtain ⟨hnd1', -, -, -⟩ := hInv1
    simpa [keysOf] using hnd1'
  have hcur1 : (s.runOp (.apply (.val v1))).current = some v1 :=
    current_of_mem hnd1 (by rw [hX1]; simp) hroot1
  have hf2' : hashV v2 ∉ keysOf (s.runOp (.apply (.val v1))).versions := by
    intro hmem
    rcases hkeys1 _ hmem with h | h
    · exact hf2 h
    · exact hd12 h.symm
  have hf3' : hashV v3 ∉ keysOf (s.runOp (.apply (.val v1))).versions := by
    intro hmem
    rcases hkeys1 _ hmem with h | h
    · exact hf3 h
    · exact hd13 h.symm
  -- step 2: apply v2
  obtain ⟨hInv2, hmhe2, -⟩ := runOp_inv hInv1 (.apply (.val v2))
  have hmh2 : 0 < (s.runOp (.apply (.val v1))).maxHistory := by omega
  obtain ⟨X2, hX2⟩ := runOp_apply_fresh_suffix hInv1 hmh2 v2 hcur1
    (by rw [hc2]; exact hf2') (X := X1) (T := [(hashV v1, v1)]) hX1
    (by simp only [List.length_cons, List.length_nil]; omega)
  rw [hc2] at hX2
  simp only [List.singleton_append] at hX2
  have hroot2 : ((s.runOp (.apply (.val v1))).runOp (.apply (.val v2))).rootHash
      = hashV v2 := by
    rw [runOp_apply_fresh hInv1 hmh2 v2 hcur1 (by rw [hc2]; exact hf2'), hc2]
  have hkeys2 := runOp_apply_fresh_keys hInv1 hmh2 v2 hcur1 (by rw [hc2]; exact hf2')
  rw [hc2] at hkeys2
  have hnd2 : (keysOf ((s.runOp (.apply (.val v1))).runOp
      (.apply (.val v2))).versions).Nodup := by
    obtain ⟨hnd2', -, -, -⟩ := hInv2
    simpa [keysOf] using hnd2'
  have hf3'' : hashV v3 ∉ keysOf ((s.runOp (.apply (.val v1))).runOp
      (.apply (.val v2))).versions := by
    intro hmem
    rcases hkeys2 _ hmem with h | h
    · exact hf3' h
    · exact hd23 h.symm
  set s2 := (s.runOp (.apply (.val v1))).runOp (.apply (.val v2)) with hs2def
  have hmh2' : 0 < s2.maxHistory := by omega
  have hK2 : keysOf s2.versions = keysOf X2 ++ [hashV v1, hashV v2] := by
    rw [hX2, keysOf_append]
    simp [keysOf]
  -- step 3: undo, back to v1
  have hrun3 : s2.runOp .undo = { s2 with rootHash := hashV v1 } := by
    have hstep : s2.runOp .undo = (s2.undo).2.1 := rfl
    rw [hstep, undo_shape (s := s2) hmh2' hnd2
      (K := keysOf X2) (a := hashV v1) (b := hashV v2) (Y := []) hK2 hroot2]
  have hInv2u : ({ s2 with rootHash := hashV v1 } : Shoy).Inv := by
    have := (runOp_inv hInv2 .undo).1
    rw [hrun3] at this
    exact this
  have hcur2u : ({ s2 with rootHash := hashV v1 } : Shoy).current = some v1 :=
    current_of_mem (s := { s2 with rootHash := hashV v1 }) (h := hashV v1)
      (v := v1) hnd2 (by rw [hX2]; simp) rfl
  -- step 4: apply v3 (the fork)
  have hmh2u : 0 < ({ s2 with rootHash := hashV v1 } : Shoy).maxHistory := hmh2'
  have hf3u : hashV (resolveCandidate v1 v3)
      ∉ keysOf ({ s2 with rootHash := hashV v1 } : Shoy).versions := by
    rw [hc3]
    exact hf3''
  obtain ⟨X4, hX4⟩ := runOp_apply_fresh_suffix hInv2u hmh2u v3 hcur2u hf3u
    (X := X2 ++ [(hashV v1, v1)]) (T := [(hashV v2, v2)])
    (by rw [show ({ s2 with rootHash := hashV v1 } : Shoy).versions
        = s2.versions from rfl, hX2]; simp)
    (by simp only [List.length_cons, List.length_nil]; omega)
  rw [hc3] at hX4
  simp only [List.singleton_append] at hX4
  have hroot4 : (({ s2 with rootHash := hashV v1 } : Shoy).runOp
      (.apply (.val v3))).rootHash = hashV v3 := by
    rw [runOp_apply_fresh hInv2u hmh2u v3 hcur2u hf3u, hc3]
  obtain ⟨hInv4, hmhe4, -⟩ := runOp_inv hInv2u (.apply (.val v3))
  have hnd4 : (keysOf (({ s2 with rootHash := hashV v1 } : Shoy).runOp
      (.apply (.val v3))).versions).Nodup := by
    obtain ⟨hnd4', -, -, -⟩ := hInv4
    simpa [keysOf] using hnd4'
  have hmh4 : 0 < (({ s2 with rootHash := hashV v1 } : Shoy).runOp
      (.apply (.val v3))).maxHistory := by omega
  set sF := ({ s2 with rootHash := hashV v1 } : Shoy).runOp (.apply (.val v3))
    with hsFdef
  have hK4 : keysOf sF.versions = keysOf X4 ++ [hashV v2, hashV v3] := by
    rw [hX4, keysOf_append]
    simp [keysOf]
  have hchain : s.runOps [.apply (.val v1), .apply (.val v2), .undo,
      .apply (.val v3)] = (s2.runOp .undo).runOp (.apply (.val v3)) := by
    simp only [Shoy.runOps, List.foldl_cons, List.foldl_nil, hs2def]
  have hchain' : s.runOps [.apply (.val v1), .apply (.val v2), .undo,
      .apply (.val v3)] = sF := by
    rw [hchain, hrun3, hsFdef]
  refine ⟨⟨X4 ++ [(hashV v2, v2)], by rw [hchain', hX4]; simp⟩, ?_, ?_, ?_, ?_⟩
  · rw [hchain']
    exact hroot4
  · rw [hchain']
    exact (redo_at_last hmh4 hnd4 (K := keysOf X4 ++ [hashV v2]) (k := hashV v3)
      (by rw [hK4]; simp) hroot4) ▸ rfl
  · rw [hchain', hK4]
    simp
  · rw [hchain']
    have hhas : hasF sF.versions (hashV v2) = true := by
      rw [hasF_iff, hK4]
      simp
    rw [Shoy.revert, if_neg (by simp [hhas]; omega)]

/-- Counterexample to C9 as stated: a value structurally distinct from every
value in the log can still collide on the fingerprint (`String(1)` and
`String("1")` both render `"1"`, so `{a: 1}` and `{a: "1"}` share a canonical
string).  After `apply {a:2}; apply {a:3}; undo`, applying `{a: "1"}` against
the initial value `{a: 1}` re-uses the initial entry's position (a JS
`Map.set` of an existing key does not move it), the Root Pointer lands at
position 0, and `redo()` returns `true`, not `false`. -/
theorem C9_fork_disables_redo_counterexample :
    isEqual (.obj [("a", .prim (.str "1"))]) (.obj [("a", .prim (.num 1))]) = false ∧
    isEqual (.obj [("a", .prim (.str "1"))]) (.obj [("a", .prim (.num 2))]) = false ∧
    isEqual (.obj [("a", .prim (.str "1"))]) (.obj [("a", .prim (.num 3))]) = false ∧
    (((Shoy.construct (.obj [("a", .prim (.num 1))]) 5).runOps
      [.apply (.val (.obj [("a", .prim (.num 2))])),
       .apply (.val (.obj [("a", .prim (.num 3))])),
       .undo,
       .apply (.val (.obj [("a", .prim (.str "1"))]))]).redo).1 = true :=
  ⟨by decide, by decide, by decide, by decide⟩

/-- Witness for the amended C9 at a concrete store (`maxHistory = 1`,
initial value `0`, applying `1`, `2`, undoing, then forking with `3`). -/
theorem C9_fork_disables_redo_amended_witness :
    1 ≤ (1 : Nat) ∧
    (((Shoy.construct (.prim (.num 0)) 1).runOps
      [.apply (.val (.prim (.num 1))), .apply (.val (.prim (.num 2))),
       .undo, .apply (.val (.prim (.num 3)))]).redo).1 = false ∧
    (((Shoy.construct (.prim (.num 0)) 1).runOps
      [.apply (.val (.prim (.num 1))), .apply (.val (.prim (.num 2))),
       .undo, .apply (.val (.prim (.num 3)))]).revert
        (hashV (.prim (.num 2)))).1 = true :=
  ⟨by decide,
   (C9_fork_disables_redo_amended (Shoy.construct (.prim (.num 0)) 1)
     (construct_inv _ _) (by decide) (.prim (.num 1)) (.prim (.num 2))
     (.prim (.num 3)) (.prim (.num 0)) rfl rfl rfl rfl (by decide) (by decide)
     (by decide) (by decide) (by decide) (by decide)).2.2.1,
   (C9_fork_disables_redo_amended (Shoy.construct (.prim (.num 0)) 1)
     (construct_inv _ _) (by decide) (.prim (.num 1)) (.prim (.num 2))
     (.prim (.num 3)) (.prim (.num 0)) rfl rfl rfl rfl (by decide) (by decide)
     (by decide) (by decide) (by decide) (by decide)).2.2.2.2⟩

/-! ## Claim C6: the NoOp short-circuit -/

/-- C6 (amended): a patch whose resolved candidate is *structurally equal*
to the current value is a NoOp: `apply` returns the existing Root Pointer
fingerprint, the store is unchanged (no new entry, no eviction), and no
subscriber fires.  The claim's parenthetical "equivalently, whose
fingerprint equals the Root Pointer's fingerprint" is dropped: fingerprint
equality is weaker than structural equality (see the counterexample). -/
theorem C6_noop_amended (s : Shoy) (hInv : s.Inv) (p : Patch) (prev pr : Value)
    (hprev : s.current = some prev)
    (hpr : (match p with | .val v => v | .fn f => f prev) = pr)
    (hwf : wfV prev = true)
    (heq : isEqual prev (resolveCandidate prev pr) = true) :
    s.apply p = some (s.rootHash, s, []) := by
  simp only [Shoy.apply, hprev, hpr]
  by_cases h1 : isPrimitive prev && isPrimitive pr
  · rw [if_pos h1]
    have hcand : resolveCandidate prev pr = pr := by
      rw [resolveCandidate, if_pos h1]
    rw [hcand] at heq
    have h1' := h1
    rw [Bool.and_eq_true] at h1'
    rcases h1' with ⟨hp1, hp2⟩
    have hobj : objectIs prev pr = true := by
      cases prev with
      | arr items => exact Bool.noConfusion hp1
      | obj fields => exact Bool.noConfusion hp1
      | prim pp =>
        cases pr with
        | arr items => exact Bool.noConfusion hp2
        | obj fields => exact Bool.noConfusion hp2
        | prim qq =>
          rw [objectIs]
          rw [isEqual] at heq
          exact heq
    rw [hobj]
    rfl
  · rw [if_neg h1]
    have hcand : resolveCandidate prev pr = deepMerge prev pr := by
      rw [resolveCandidate, if_neg h1]
    rw [hcand] at heq
    have hh : hashV (deepMerge prev pr) = s.rootHash := by
      rw [← isEqual_hashV hwf heq]
      exact hash_current_of_inv hInv hprev
    rw [show (hashV (deepMerge prev pr) == s.rootHash) = true
      from beq_iff_eq.mpr hh]
    rfl

/-- Counterexample to C6's "equivalently, fingerprint equality": with
current value the number `1`, the patch `"1"` (a string) resolves to a
candidate whose fingerprint `"p1"` equals the Root Pointer's fingerprint,
because JS `String()` erases the type; yet `Object.is(1, "1")` is false, so
`apply` commits: the registered subscriber is invoked (and the stored value
is replaced), contradicting "invokes no subscriber". -/
theorem C6_noop_counterexample :
    hashV (.prim (.str "1"))
      = ((Shoy.construct (.prim (.num 1)) 0).subscribe 0).rootHash ∧
    isEqual (.prim (.num 1)) (.prim (.str "1")) = false ∧
    (((Shoy.construct (.prim (.num 1)) 0).subscribe 0).apply
      (.val (.prim (.str "1")))).map (fun r => r.2.2) = some [(0, "p1")] ∧
    (((Shoy.construct (.prim (.num 1)) 0).subscribe 0).apply
      (.val (.prim (.str "1")))).map (fun r => r.2.1.current)
      = some (some (.prim (.str "1"))) :=
  ⟨rfl, by decide, rfl, rfl⟩

/-- Witness for the amended C6: current `{n: 1}`, patch `{n: 1}`. -/
theorem C6_noop_amended_witness :
    (Shoy.construct (.obj [("n", .prim (.num 1))]) 0).current
      = some (.obj [("n", .prim (.num 1))]) ∧
    wfV (.obj [("n", .prim (.num 1))]) = true ∧
    (Shoy.construct (.obj [("n", .prim (.num 1))]) 0).apply
      (.val (.obj [("n", .prim (.num 1))]))
      = some ((Shoy.construct (.obj [("n", .prim (.num 1))]) 0).rootHash,
          Shoy.construct (.obj [("n", .prim (.num 1))]) 0, []) :=
  ⟨rfl, by decide,
   C6_noop_amended (Shoy.construct (.obj [("n", .prim (.num 1))]) 0)
     (construct_inv _ _) (.val (.obj [("n", .prim (.num 1))]))
     (.obj [("n", .prim (.num 1))]) (.obj [("n", .prim (.num 1))])
     rfl rfl (by decide) (by decide)⟩

/-! ## Claim C10: revert to the current fingerprint -/

/-- C10: with history enabled, `revert` to the current Root Pointer's own
fingerprint (always a present key under the invariant) returns `true` and
synchronously notifies every registered subscriber with that fingerprint,
although the store state is unchanged. -/
theorem C10_revert_to_current (s : Shoy) (hInv : s.Inv) (hmh : 0 < s.maxHistory) :
    s.revert s.rootHash
      = (true, s, s.listeners.map (fun i => (i, s.rootHash))) := by
  obtain ⟨-, hroot, -, -⟩ := hInv
  have hh : hasF s.versions s.rootHash = true :=
    (hasF_iff _ _).mpr (by simpa [keysOf] using hroot)
  rw [Shoy.revert, if_neg (by simp [hh]; omega)]
  rfl

/-- Witness for C10: a two-subscriber store with `maxHistory = 3`. -/
theorem C10_revert_to_current_witness :
    0 < 3 ∧
    (((Shoy.construct (.prim (.num 7)) 3).subscribe 4).subscribe 6).revert
        (((Shoy.construct (.prim (.num 7)) 3).subscribe 4).subscribe 6).rootHash
      = (true, ((Shoy.construct (.prim (.num 7)) 3).subscribe 4).subscribe 6,
         [(4, "p7"), (6, "p7")]) :=
  ⟨by decide,
   C10_revert_to_current (((Shoy.construct (.prim (.num 7)) 3).subscribe 4).subscribe 6)
     (by refine ⟨?_, ?_, ?_, ?_⟩ <;> decide) (by decide)⟩

/-! ## Claim C1: circular references -/

/-- Hashing the circular object itself never completes, whatever the
recursion depth: `fastObjectHash` has no cycle check. -/
theorem fastObjectHashH_circular_none :
    ∀ fuel, fastObjectHashH circularHeap fuel 0 = none := by
  intro fuel
  induction fuel with
  | zero => simp [fastObjectHashH]
  | succ n ih =>
    rw [fastObjectHashH]
    rw [circularHeap] at ih
    simp [lookupH, circularHeap, hImageFields, ih]

/-- Hashing the candidate `apply` builds (`{name: "new", self: circular}`)
never completes either. -/
theorem fastObjectHashH_candidate_none :
    ∀ fuel, fastObjectHashH circularHeap fuel 1 = none := by
  intro fuel
  cases fuel with
  | zero => simp [fastObjectHashH]
  | succ n =>
    rw [fastObjectHashH]
    have hc := fastObjectHashH_circular_none n
    rw [circularHeap] at hc
    simp [lookupH, circularHeap, hImageFields, hc]

/-- C1 (evidence for the code bug): on the repository's own test input
(`shoy.test.ts` lines 92-100: `store.apply(circular)` is expected to throw
`"Circular reference detected in state object"`), `Shoy.apply` computes
`this.hash(next)` (line 469) *before* `commit` runs `validateState`
(line 432).  The candidate built by `deepMerge` contains the cycle, and
`fastObjectHash` recurses through it without any cycle check, so the hash
computation exceeds every recursion depth (a stack overflow in JS) and the
promised CircularReference condition is never raised on the apply path —
even though `checkCircularReference` would detect the cycle (second
conjunct), it is never reached.  (The constructor path validates first,
line 336, so construction does raise CircularReference.) -/
theorem C1_apply_circular_reference_code_bug :
    (∀ fuel, fastObjectHashH circularHeap fuel 1 = none) ∧
    checkCircularReference circularHeap 5 [] 1 = true ∧
    checkCircularReference circularHeap 5 [] 0 = true :=
  ⟨fastObjectHashH_candidate_none, by decide, by decide⟩
